import Mathlib

/-!
# Verification of the dagrt/leap core

A shallow embedding of the core of the `dagrt` repository:

* `src/dagrt/expression.py` — the symbolic expression layer
  (evaluation, constant collapsing);
* `src/leap/vm/codegen/data.py` — the kind (mini-type) system:
  `unify`, `KindInferenceMapper`, `SymbolKindTable`, `SymbolKindFinder`;
* `src/leap/vm/exec_numpy.py` — the numpy interpretation backend
  (`set_up`, `run`, fail-step handling, per-step state cleanup).

Python dicts are modelled as association lists with first-match lookup;
Python floats are modelled as rationals (`ℚ`); exceptions are modelled
with `Except`.
-/

deriving instance DecidableEq for Except

/-- Python's `str.startswith`, modelled on the character list (unlike
`String.startsWith`, this reduces inside the kernel). -/
def pyStartswith (s p : String) : Bool :=
  List.isPrefixOf p.data s.data

/-- First-match lookup in an association list (model of a Python dict read). -/
def slookup {β : Type} (m : List (String × β)) (k : String) : Option β :=
  match m.find? (fun p => p.1 == k) with
  | some p => some p.2
  | none => none

/-- Update-or-insert in an association list (model of a Python dict write):
the new binding is placed in front and every stale binding of the same
key is dropped. -/
def sset {β : Type} (m : List (String × β)) (k : String) (v : β) :
    List (String × β) :=
  (k, v) :: m.filter (fun p => p.1 != k)

theorem slookup_sset_self {β : Type} (m : List (String × β)) (k : String) (v : β) :
    slookup (sset m k v) k = some v := by
  simp [slookup, sset, List.find?]

theorem find?_filter_key_ne {β : Type} (m : List (String × β)) (k k' : String)
    (h : k' ≠ k) :
    (m.filter (fun p => p.1 != k)).find? (fun p => p.1 == k')
      = m.find? (fun p => p.1 == k') := by
  have hkk : (k == k') = false := by
    simp only [beq_eq_false_iff_ne, ne_eq]
    exact fun hh => h hh.symm
  induction m with
  | nil => rfl
  | cons p rest ih =>
    by_cases hp : p.1 = k
    · simp [List.filter_cons, hp, List.find?_cons, hkk, ih]
    · by_cases hq : p.1 = k'
      · simp [List.filter_cons, hp, List.find?_cons, hq, h]
      · simp [List.filter_cons, hp, List.find?_cons, hq, ih]

theorem slookup_sset_ne {β : Type} (m : List (String × β)) (k k' : String) (v : β)
    (h : k' ≠ k) : slookup (sset m k v) k' = slookup m k' := by
  have hk : (((k, v) : String × β).1 == k') = false := by
    simp only [beq_eq_false_iff_ne, ne_eq]
    exact fun hh => h hh.symm
  simp only [slookup, sset, List.find?_cons, hk]
  rw [find?_filter_key_ne m k k' h]

/-! ## Kinds and `unify` (`src/leap/vm/codegen/data.py`, lines 38-194) -/

/-- The closed set of symbol kinds (`SymbolKind` and its subclasses). -/
inductive Kind where
  | boolean : Kind
  | scalar (is_real_valued : Bool) : Kind
  | array (is_real_valued : Bool) : Kind
  | odeComponent (component_id : String) : Kind
deriving DecidableEq

/-- `unify(kind_a, kind_b)` from `data.py` lines 155-194.  A `None`
argument (modelled as `none`) is the identity; `Boolean` participates in
no arithmetic; a failed `assert isinstance(...)` is modelled as an
`AssertionError`. -/
def unify : Option Kind → Option Kind → Except String (Option Kind)
  | none, kind_b => .ok kind_b
  | some kind_a, none => .ok (some kind_a)
  | some Kind.boolean, some _ => .error "arithmetic with flags is not permitted"
  | some _, some Kind.boolean => .error "arithmetic with flags is not permitted"
  | some (Kind.odeComponent c1), some (Kind.odeComponent c2) =>
    if c1 ≠ c2 then .error "encountered arithmetic with mismatched ODE components"
    else .ok (some (Kind.odeComponent c1))
  | some (Kind.odeComponent c1), some (Kind.scalar _) =>
    .ok (some (Kind.odeComponent c1))
  | some (Kind.odeComponent _), some (Kind.array _) => .error "AssertionError"
  | some (Kind.array r1), some (Kind.array r2) => .ok (some (Kind.array (r1 && r2)))
  | some (Kind.array r1), some (Kind.scalar r2) => .ok (some (Kind.array (r1 && r2)))
  | some (Kind.array _), some (Kind.odeComponent _) => .error "AssertionError"
  | some (Kind.scalar _), some (Kind.odeComponent c2) =>
    .ok (some (Kind.odeComponent c2))
  | some (Kind.scalar r1), some (Kind.array r2) => .ok (some (Kind.array (r1 && r2)))
  | some (Kind.scalar r1), some (Kind.scalar r2) => .ok (some (Kind.scalar (r1 && r2)))

/-- Kinds drawn from the Scalar/Array families. -/
def isScalarOrArray : Kind → Bool
  | .scalar _ => true
  | .array _ => true
  | _ => false

/-- C4: `unify` is commutative on every pair drawn from the Scalar and
Array kinds (for all real-valuedness flags); unifying two `ODEComponent`
kinds with distinct component ids fails with an error; and for every kind
`k`, unifying `Boolean` with `k` in either order fails with an error. -/
theorem c4_unify_commutative_and_failures (a b : Kind) (c1 c2 : String) (k : Kind)
    (ha : isScalarOrArray a = true) (hb : isScalarOrArray b = true)
    (hc : c1 ≠ c2) :
    unify (some a) (some b) = unify (some b) (some a)
    ∧ (∃ e, unify (some (Kind.odeComponent c1)) (some (Kind.odeComponent c2))
        = .error e)
    ∧ (∃ e, unify (some Kind.boolean) (some k) = .error e)
    ∧ (∃ e, unify (some k) (some Kind.boolean) = .error e) := by
  refine ⟨?_, ?_, ?_, ?_⟩
  · cases a <;> cases b <;>
      simp_all [unify, isScalarOrArray, Bool.and_comm]
  · simp [unify, hc]
  · cases k <;> simp [unify]
  · cases k <;> simp [unify]

/-- Witness for C4 at concrete kinds. -/
theorem c4_unify_witness :
    unify (some (Kind.scalar true)) (some (Kind.array false))
      = unify (some (Kind.array false)) (some (Kind.scalar true))
    ∧ (∃ e, unify (some (Kind.odeComponent "a")) (some (Kind.odeComponent "b"))
        = .error e)
    ∧ (∃ e, unify (some Kind.boolean) (some (Kind.scalar true)) = .error e)
    ∧ (∃ e, unify (some (Kind.scalar true)) (some Kind.boolean) = .error e) :=
  c4_unify_commutative_and_failures (Kind.scalar true) (Kind.array false)
    "a" "b" (Kind.scalar true) rfl rfl (by decide)

/-! ## Variable resolution in the evaluator
(`src/dagrt/expression.py`, `EvaluationMapper.map_variable`, lines 70-74) -/

/-- `EvaluationMapper.map_variable`: the value context is consulted first,
then the function table; a name absent from both falls off the end of the
`if`/`elif` chain and Python implicitly returns `None` (modelled as
`none`), without raising. -/
def map_variable {α : Type} (context functions : String → Option α)
    (name : String) : Option α :=
  match context name with
  | some v => some v
  | none =>
    match functions name with
    | some f => some f
    | none => none

/-- C8: during expression evaluation a variable bound in the value context
evaluates to that value (even when the same name is in the function
table); otherwise a name bound in the function table evaluates to the
function as a first-class value; otherwise evaluation silently yields no
value instead of raising. -/
theorem c8_variable_resolution {α : Type} (context functions : String → Option α)
    (name : String) (v f : α) :
    (context name = some v → map_variable context functions name = some v)
    ∧ (context name = none → functions name = some f →
        map_variable context functions name = some f)
    ∧ (context name = none → functions name = none →
        map_variable context functions name = none) := by
  refine ⟨?_, ?_, ?_⟩
  · intro hc
    simp [map_variable, hc]
  · intro hc hf
    simp [map_variable, hc, hf]
  · intro hc hf
    simp [map_variable, hc, hf]

/-- Witness for C8 at a concrete context and function table in which the
name "x" is bound in both. -/
theorem c8_variable_resolution_witness :
    ((fun n => if n = "x" then some 1 else none) "x" = some 1 →
      map_variable (fun n => if n = "x" then some 1 else none)
        (fun n => if n = "x" then some 2 else none) "x" = some 1)
    ∧ ((fun n => if n = "x" then some 1 else none) "x" = none →
        (fun n => if n = "x" then some 2 else none) "x" = some 2 →
        map_variable (fun n => if n = "x" then some 1 else none)
          (fun n => if n = "x" then some 2 else none) "x" = some 2)
    ∧ ((fun n => if n = "x" then some 1 else none) "x" = none →
        (fun n => if n = "x" then some 2 else none) "x" = none →
        map_variable (fun n => if n = "x" then some 1 else none)
          (fun n => if n = "x" then some 2 else none) "x" = none) :=
  c8_variable_resolution (fun n => if n = "x" then (some 1 : Option Nat) else none)
    (fun n => if n = "x" then some 2 else none) "x" 1 2

/-! ## Kind inference (`KindInferenceMapper`, `data.py` lines 197-259)

The expression fragment the kind-inference claims exercise: numeric
literals (real or complex), variables, sums, products and quotients.
Symbol tables may record `None` as a kind (Python stores whatever value
`set` received), so table values are `Option Kind`. -/

inductive KExpr where
  | const (is_complex : Bool)
  | var (name : String)
  | sum (children : List KExpr)
  | prod (children : List KExpr)
  | quot (numerator denominator : KExpr)

/-- Kind-inference failures: `UnableToInferKind` is recoverable (retried
by the solver); a `ValueError` raised by `unify` or a mapper method is a
hard error. -/
inductive InferErr where
  | unableToInferKind
  | hardError (msg : String)
deriving DecidableEq

mutual

/-- `KindInferenceMapper.rec`: `map_constant` (complex literals are
non-real scalars), `map_variable` (global table first, then local table,
else `UnableToInferKind`), `map_sum`, `map_product` and `map_quotient`
(the latter delegates to `map_product_like` on the two operands, unrolled
here over the pair). -/
def kim (gt lt : List (String × Option Kind)) : KExpr → Except InferErr (Option Kind)
  | .const is_complex => .ok (some (Kind.scalar (!is_complex)))
  | .var name =>
    match slookup gt name with
    | some k => .ok k
    | none =>
      match slookup lt name with
      | some k => .ok k
      | none => .error .unableToInferKind
  | .sum cs =>
    match kimSum gt lt none cs with
    | .error e => .error e
    | .ok none => .error .unableToInferKind
    | .ok (some k) => .ok (some k)
  | .prod cs => kimProdLike gt lt none cs
  | .quot numerator denominator =>
    match kim gt lt numerator with
    | .error e => .error e
    | .ok ka =>
      match unify none ka with
      | .error m => .error (.hardError m)
      | .ok k1 =>
        match kim gt lt denominator with
        | .error e => .error e
        | .ok kb =>
          match unify k1 kb with
          | .error m => .error (.hardError m)
          | .ok k2 => .ok k2
termination_by e => (sizeOf e, 0)

/-- The loop of `map_sum`: children whose recursion raises
`UnableToInferKind` are skipped; other errors propagate; inferable
children are folded through `unify`. -/
def kimSum (gt lt : List (String × Option Kind)) (kind : Option Kind) :
    List KExpr → Except InferErr (Option Kind)
  | [] => .ok kind
  | ch :: rest =>
    match kim gt lt ch with
    | .error .unableToInferKind => kimSum gt lt kind rest
    | .error (.hardError m) => .error (.hardError m)
    | .ok chKind =>
      match unify kind chKind with
      | .error m => .error (.hardError m)
      | .ok kind2 => kimSum gt lt kind2 rest
termination_by cs => (sizeOf cs, 1)

/-- The loop of `map_product_like`: every operand must be inferable;
`UnableToInferKind` from any operand propagates. -/
def kimProdLike (gt lt : List (String × Option Kind)) (kind : Option Kind) :
    List KExpr → Except InferErr (Option Kind)
  | [] => .ok kind
  | ch :: rest =>
    match kim gt lt ch with
    | .error e => .error e
    | .ok chKind =>
      match unify kind chKind with
      | .error m => .error (.hardError m)
      | .ok kind2 => kimProdLike gt lt kind2 rest
termination_by cs => (sizeOf cs, 1)

end

theorem unify_ok_none (a b : Option Kind) (h : unify a b = .ok none) :
    a = none ∧ b = none := by
  match a, b with
  | none, none => exact ⟨rfl, rfl⟩
  | none, some kb => simp [unify] at h
  | some ka, none => simp [unify] at h
  | some ka, some kb =>
    cases ka <;> cases kb <;> simp only [unify] at h <;>
      first
      | (split at h <;> simp_all)
      | simp_all


theorem kimSum_nil (gt lt : List (String × Option Kind)) (kind : Option Kind) :
    kimSum gt lt kind [] = .ok kind := by
  simp [kimSum]

theorem kimSum_cons_unable (gt lt : List (String × Option Kind))
    (kind : Option Kind) (ch : KExpr) (rest : List KExpr)
    (hch : kim gt lt ch = .error .unableToInferKind) :
    kimSum gt lt kind (ch :: rest) = kimSum gt lt kind rest := by
  simp [kimSum, hch]

theorem kimSum_cons_hard (gt lt : List (String × Option Kind))
    (kind : Option Kind) (ch : KExpr) (rest : List KExpr) (m : String)
    (hch : kim gt lt ch = .error (.hardError m)) :
    kimSum gt lt kind (ch :: rest) = .error (.hardError m) := by
  simp [kimSum, hch]

theorem kimSum_cons_ok_err (gt lt : List (String × Option Kind))
    (kind ck : Option Kind) (ch : KExpr) (rest : List KExpr) (m : String)
    (hch : kim gt lt ch = .ok ck) (hu : unify kind ck = .error m) :
    kimSum gt lt kind (ch :: rest) = .error (.hardError m) := by
  simp [kimSum, hch, hu]

theorem kimSum_cons_ok_ok (gt lt : List (String × Option Kind))
    (kind ck kind2 : Option Kind) (ch : KExpr) (rest : List KExpr)
    (hch : kim gt lt ch = .ok ck) (hu : unify kind ck = .ok kind2) :
    kimSum gt lt kind (ch :: rest) = kimSum gt lt kind2 rest := by
  simp [kimSum, hch, hu]

theorem kimProdLike_nil (gt lt : List (String × Option Kind)) (kind : Option Kind) :
    kimProdLike gt lt kind [] = .ok kind := by
  simp [kimProdLike]

theorem kimProdLike_cons_err (gt lt : List (String × Option Kind))
    (kind : Option Kind) (ch : KExpr) (rest : List KExpr) (e : InferErr)
    (hch : kim gt lt ch = .error e) :
    kimProdLike gt lt kind (ch :: rest) = .error e := by
  simp [kimProdLike, hch]

theorem kimProdLike_cons_ok_err (gt lt : List (String × Option Kind))
    (kind ck : Option Kind) (ch : KExpr) (rest : List KExpr) (m : String)
    (hch : kim gt lt ch = .ok ck) (hu : unify kind ck = .error m) :
    kimProdLike gt lt kind (ch :: rest) = .error (.hardError m) := by
  simp [kimProdLike, hch, hu]

theorem kimProdLike_cons_ok_ok (gt lt : List (String × Option Kind))
    (kind ck kind2 : Option Kind) (ch : KExpr) (rest : List KExpr)
    (hch : kim gt lt ch = .ok ck) (hu : unify kind ck = .ok kind2) :
    kimProdLike gt lt kind (ch :: rest) = kimProdLike gt lt kind2 rest := by
  simp [kimProdLike, hch, hu]

theorem kimSum_skip (gt lt : List (String × Option Kind)) (ch : KExpr)
    (hch : kim gt lt ch = .error .unableToInferKind) :
    ∀ (pre : List KExpr) (kind : Option Kind) (post : List KExpr),
      kimSum gt lt kind (pre ++ ch :: post) = kimSum gt lt kind (pre ++ post) := by
  intro pre
  induction pre with
  | nil =>
    intro kind post
    simpa using kimSum_cons_unable gt lt kind ch post hch
  | cons p rest ih =>
    intro kind post
    simp only [List.cons_append]
    cases hkp : kim gt lt p with
    | error e =>
      cases e with
      | unableToInferKind =>
        rw [kimSum_cons_unable gt lt kind p _ hkp,
          kimSum_cons_unable gt lt kind p _ hkp]
        exact ih kind post
      | hardError m =>
        rw [kimSum_cons_hard gt lt kind p _ m hkp,
          kimSum_cons_hard gt lt kind p _ m hkp]
    | ok chKind =>
      cases hu : unify kind chKind with
      | error m =>
        rw [kimSum_cons_ok_err gt lt kind chKind p _ m hkp hu,
          kimSum_cons_ok_err gt lt kind chKind p _ m hkp hu]
      | ok kind2 =>
        rw [kimSum_cons_ok_ok gt lt kind chKind kind2 p _ hkp hu,
          kimSum_cons_ok_ok gt lt kind chKind kind2 p _ hkp hu]
        exact ih kind2 post

theorem kimSum_all_unable (gt lt : List (String × Option Kind)) :
    ∀ (cs : List KExpr) (kind : Option Kind),
      (∀ c ∈ cs, kim gt lt c = .error .unableToInferKind) →
      kimSum gt lt kind cs = .ok kind := by
  intro cs
  induction cs with
  | nil => intro kind _; exact kimSum_nil gt lt kind
  | cons c rest ih =>
    intro kind hall
    have hc : kim gt lt c = .error .unableToInferKind := hall c (by simp)
    rw [kimSum_cons_unable gt lt kind c rest hc]
    exact ih kind (fun x hx => hall x (by simp [hx]))

theorem kimSum_ok_none (gt lt : List (String × Option Kind)) :
    ∀ (cs : List KExpr) (kind : Option Kind),
      kimSum gt lt kind cs = .ok none →
      kind = none ∧ ∀ c ∈ cs, ∀ k, kim gt lt c ≠ .ok (some k) := by
  intro cs
  induction cs with
  | nil =>
    intro kind h
    rw [kimSum_nil gt lt kind] at h
    cases h
    exact ⟨rfl, by simp⟩
  | cons c rest ih =>
    intro kind h
    cases hkc : kim gt lt c with
    | error e =>
      cases e with
      | unableToInferKind =>
        rw [kimSum_cons_unable gt lt kind c rest hkc] at h
        obtain ⟨hk, hrest⟩ := ih kind h
        refine ⟨hk, ?_⟩
        intro x hx k
        rcases List.mem_cons.mp hx with hx | hx
        · subst hx; simp [hkc]
        · exact hrest x hx k
      | hardError m =>
        rw [kimSum_cons_hard gt lt kind c rest m hkc] at h
        cases h
    | ok chKind =>
      cases hu : unify kind chKind with
      | error m =>
        rw [kimSum_cons_ok_err gt lt kind chKind c rest m hkc hu] at h
        cases h
      | ok kind2 =>
        rw [kimSum_cons_ok_ok gt lt kind chKind kind2 c rest hkc hu] at h
        obtain ⟨hk2, hrest⟩ := ih kind2 h
        subst hk2
        obtain ⟨hka, hkb⟩ := unify_ok_none kind chKind hu
        refine ⟨hka, ?_⟩
        intro x hx k
        rcases List.mem_cons.mp hx with hx | hx
        · subst hx; simp [hkc, hkb]
        · exact hrest x hx k

theorem kimProdLike_uninferable (gt lt : List (String × Option Kind)) :
    ∀ (pre : List KExpr) (kind acc : Option Kind) (ch : KExpr) (post : List KExpr),
      kimProdLike gt lt kind pre = .ok acc →
      kim gt lt ch = .error .unableToInferKind →
      kimProdLike gt lt kind (pre ++ ch :: post) = .error .unableToInferKind := by
  intro pre
  induction pre with
  | nil =>
    intro kind acc ch post _ hch
    simpa using kimProdLike_cons_err gt lt kind ch post _ hch
  | cons p rest ih =>
    intro kind acc ch post hpre hch
    cases hkp : kim gt lt p with
    | error e =>
      rw [kimProdLike_cons_err gt lt kind p rest e hkp] at hpre
      cases hpre
    | ok chKind =>
      cases hu : unify kind chKind with
      | error m =>
        rw [kimProdLike_cons_ok_err gt lt kind chKind p rest m hkp hu] at hpre
        cases hpre
      | ok kind2 =>
        rw [kimProdLike_cons_ok_ok gt lt kind chKind kind2 p rest hkp hu] at hpre
        simp only [List.cons_append]
        rw [kimProdLike_cons_ok_ok gt lt kind chKind kind2 p _ hkp hu]
        exact ih kind2 acc ch post hpre hch

theorem kimProdLike_ok_all (gt lt : List (String × Option Kind)) :
    ∀ (cs : List KExpr) (kind k : Option Kind),
      kimProdLike gt lt kind cs = .ok k →
      ∀ c ∈ cs, ∃ r, kim gt lt c = .ok r := by
  intro cs
  induction cs with
  | nil => intro kind k _; simp
  | cons c rest ih =>
    intro kind k h
    cases hkc : kim gt lt c with
    | error e =>
      rw [kimProdLike_cons_err gt lt kind c rest e hkc] at h
      cases h
    | ok chKind =>
      cases hu : unify kind chKind with
      | error m =>
        rw [kimProdLike_cons_ok_err gt lt kind chKind c rest m hkc hu] at h
        cases h
      | ok kind2 =>
        rw [kimProdLike_cons_ok_ok gt lt kind chKind kind2 c rest hkc hu] at h
        intro x hx
        rcases List.mem_cons.mp hx with hx | hx
        · subst hx; exact ⟨chKind, hkc⟩
        · exact ih kind2 k h x hx

theorem kimSum_error_hard (gt lt : List (String × Option Kind)) :
    ∀ (cs : List KExpr) (kind : Option Kind) (e : InferErr),
      kimSum gt lt kind cs = .error e → ∃ m, e = .hardError m := by
  intro cs
  induction cs with
  | nil =>
    intro kind e h
    rw [kimSum_nil gt lt kind] at h
    cases h
  | cons c rest ih =>
    intro kind e h
    cases hkc : kim gt lt c with
    | error e2 =>
      cases e2 with
      | unableToInferKind =>
        rw [kimSum_cons_unable gt lt kind c rest hkc] at h
        exact ih kind e h
      | hardError m =>
        rw [kimSum_cons_hard gt lt kind c rest m hkc] at h
        cases h
        exact ⟨m, rfl⟩
    | ok chKind =>
      cases hu : unify kind chKind with
      | error m =>
        rw [kimSum_cons_ok_err gt lt kind chKind c rest m hkc hu] at h
        cases h
        exact ⟨m, rfl⟩
      | ok kind2 =>
        rw [kimSum_cons_ok_ok gt lt kind chKind kind2 c rest hkc hu] at h
        exact ih kind2 e h

/-- C7: kind inference is asymmetric between sums and products.  For a
sum, children raising `UnableToInferKind` are skipped (removing such a
child does not change the result); a sum all of whose children raise
`UnableToInferKind` raises `UnableToInferKind`; and a sum raises
`UnableToInferKind` only when no child is inferable to a kind.  For a
product, one uninferable operand (after an inferable prefix) makes the
whole inference raise `UnableToInferKind`, and a product that infers a
kind has every operand inferable.  A quotient delegates to the product
rule on (numerator, denominator), so an uninferable operand on either
side raises `UnableToInferKind`. -/
theorem c7_sum_product_inference
    (gt lt : List (String × Option Kind))
    (pre post : List KExpr) (ch : KExpr)
    (cs cs2 : List KExpr)
    (ppre ppost : List KExpr) (pch : KExpr) (acc : Option Kind)
    (qa qb qa2 qb2 : KExpr) (ka : Option Kind)
    (hch : kim gt lt ch = .error .unableToInferKind)
    (hall : ∀ c ∈ cs, kim gt lt c = .error .unableToInferKind)
    (hsum2 : kim gt lt (.sum cs2) = .error .unableToInferKind)
    (hppre : kimProdLike gt lt none ppre = .ok acc)
    (hpch : kim gt lt pch = .error .unableToInferKind)
    (hqa : kim gt lt qa = .ok ka)
    (hqb : kim gt lt qb = .error .unableToInferKind)
    (hqa2 : kim gt lt qa2 = .error .unableToInferKind) :
    kim gt lt (.sum (pre ++ ch :: post)) = kim gt lt (.sum (pre ++ post))
    ∧ kim gt lt (.sum cs) = .error .unableToInferKind
    ∧ (∀ c ∈ cs2, ∀ k, kim gt lt c ≠ .ok (some k))
    ∧ kim gt lt (.prod (ppre ++ pch :: ppost)) = .error .unableToInferKind
    ∧ (∀ csp k, kim gt lt (.prod csp) = .ok k → ∀ c ∈ csp, ∃ r, kim gt lt c = .ok r)
    ∧ kim gt lt (.quot qa qb) = .error .unableToInferKind
    ∧ kim gt lt (.quot qa2 qb2) = .error .unableToInferKind := by
  refine ⟨?_, ?_, ?_, ?_, ?_, ?_, ?_⟩
  · have hs := kimSum_skip gt lt ch hch pre none post
    simp only [kim]
    rw [hs]
  · simp [kim, kimSum_all_unable gt lt cs none hall]
  · cases hks : kimSum gt lt none cs2 with
    | error e =>
      have h2 : kim gt lt (.sum cs2) = .error e := by simp [kim, hks]
      rw [h2] at hsum2
      cases hsum2
      obtain ⟨m, hm⟩ := kimSum_error_hard gt lt cs2 none _ hks
      cases hm
    | ok kopt =>
      cases kopt with
      | none => exact (kimSum_ok_none gt lt cs2 none hks).2
      | some k =>
        have h2 : kim gt lt (.sum cs2) = .ok (some k) := by simp [kim, hks]
        rw [h2] at hsum2
        cases hsum2
  · simp only [kim]
    exact kimProdLike_uninferable gt lt ppre none acc pch ppost hppre hpch
  · intro csp k h
    have h2 : kimProdLike gt lt none csp = .ok k := by simpa [kim] using h
    exact kimProdLike_ok_all gt lt csp none k h2
  · simp [kim, hqa, hqb, unify]
  · simp [kim, hqa2]

/-- Witness for C7 at a concrete global table binding "b" to a real
scalar, with "u" and "w" unresolved. -/
theorem c7_sum_product_inference_witness :
    kim [("b", some (Kind.scalar true))] [] (.sum ([.var "b"] ++ .var "u" :: [.const false]))
      = kim [("b", some (Kind.scalar true))] [] (.sum ([.var "b"] ++ [.const false]))
    ∧ kim [("b", some (Kind.scalar true))] [] (.sum [.var "u", .var "w"])
      = .error .unableToInferKind
    ∧ (∀ c ∈ [KExpr.var "u"], ∀ k,
        kim [("b", some (Kind.scalar true))] [] c ≠ .ok (some k))
    ∧ kim [("b", some (Kind.scalar true))] [] (.prod ([.var "b"] ++ .var "u" :: []))
      = .error .unableToInferKind
    ∧ (∀ csp k, kim [("b", some (Kind.scalar true))] [] (.prod csp) = .ok k →
        ∀ c ∈ csp, ∃ r, kim [("b", some (Kind.scalar true))] [] c = .ok r)
    ∧ kim [("b", some (Kind.scalar true))] [] (.quot (.const false) (.var "u"))
      = .error .unableToInferKind
    ∧ kim [("b", some (Kind.scalar true))] [] (.quot (.var "u") (.const false))
      = .error .unableToInferKind :=
  c7_sum_product_inference [("b", some (Kind.scalar true))] []
    [.var "b"] [.const false] (.var "u")
    [.var "u", .var "w"] [.var "u"]
    [.var "b"] [] (.var "u") (some (Kind.scalar true))
    (.const false) (.var "u") (.var "u") (.const false) (some (Kind.scalar true))
    (by simp [kim, slookup])
    (by intro c hc; rcases List.mem_cons.mp hc with h | h
        · subst h; simp [kim, slookup]
        · simp at h; subst h; simp [kim, slookup])
    (by simp [kim, kimSum, slookup, unify])
    (by simp [kimProdLike, kim, slookup, unify])
    (by simp [kim, slookup])
    (by simp [kim])
    (by simp [kim, slookup])
    (by simp [kim, slookup])

/-! ## The symbol kind table (`SymbolKindTable`, `data.py` lines 94-146) -/

/-- Modelled from the spec: `leap.vm.utils.is_state_variable` is not under
`src/`.  Per the spec (sections 3, 4.2 and the glossary), the reserved
name prefixes `<t>`, `<dt>`, `<p>…`, `<state>…`, `<func>…` mark the
cross-step-persistent or externally-bound symbols that are routed to the
global table; all other names are per-function locals. -/
def is_state_variable (name : String) : Bool :=
  name == "<t>" || name == "<dt>" || pyStartswith name "<p>"
    || pyStartswith name "<state>" || pyStartswith name "<func>"

/-- The two-level symbol kind table.  Values are `Option Kind` because
Python's `set` stores whatever value it is handed, including `None`. -/
structure SymbolKindTable where
  global_table : List (String × Option Kind)
  per_function_table : List (String × List (String × Option Kind))
deriving DecidableEq

/-- `SymbolKindTable.__init__`: `<t>` and `<dt>` start as real scalars. -/
def initialSymbolKindTable : SymbolKindTable :=
  { global_table := [("<t>", some (Kind.scalar true)), ("<dt>", some (Kind.scalar true))]
    per_function_table := [] }

/-- Python `type(kind).__name__`, as used in the conflict message. -/
def kindTypeName : Option Kind → String
  | none => "NoneType"
  | some Kind.boolean => "Boolean"
  | some (Kind.scalar _) => "Scalar"
  | some (Kind.array _) => "Array"
  | some (Kind.odeComponent _) => "ODEComponent"

/-- The `RuntimeError` message raised by `SymbolKindTable.set` on a
conflicting re-derivation. -/
def conflictMsg (name func_name : String) (new old : Option Kind) : String :=
  "inconsistent 'kind' derived for '" ++ name ++ "' in '" ++ func_name
    ++ "': '" ++ kindTypeName new ++ "' vs '" ++ kindTypeName old ++ "'"

/-- `SymbolKindTable.set` (`data.py` lines 112-127).  The pair returned is
(result, table after the call): Python mutates `self`, so the table after
a failed call is returned explicitly (the only mutation on any error path
is `setdefault` inserting an empty local table). -/
def SymbolKindTable.set (tbl : SymbolKindTable) (func_name name : String)
    (kind : Option Kind) : Except String Unit × SymbolKindTable :=
  if is_state_variable name then
    match slookup tbl.global_table name with
    | some old =>
      if old ≠ kind then (.error (conflictMsg name func_name kind old), tbl)
      else (.ok (), tbl)
    | none =>
      (.ok (), { tbl with global_table := sset tbl.global_table name kind })
  else
    let tbl1 :=
      match slookup tbl.per_function_table func_name with
      | some _ => tbl
      | none =>
        { tbl with per_function_table := sset tbl.per_function_table func_name [] }
    let lt := (slookup tbl1.per_function_table func_name).getD []
    match slookup lt name with
    | some old =>
      if old ≠ kind then (.error (conflictMsg name func_name kind old), tbl1)
      else (.ok (), tbl1)
    | none =>
      (.ok (),
        { tbl1 with
            per_function_table :=
              sset tbl1.per_function_table func_name (sset lt name kind) })

/-- The kind currently recorded for `name`: in the global table for
reserved-prefix names, otherwise in the local table of `func_name`. -/
def recordedKind (tbl : SymbolKindTable) (func_name name : String) :
    Option (Option Kind) :=
  if is_state_variable name then slookup tbl.global_table name
  else slookup ((slookup tbl.per_function_table func_name).getD []) name

/-- C6: once a kind has been recorded for a name (in the global table for
reserved-prefix names, otherwise in the owning function's local table),
setting the same name again with a structurally equal kind returns
success and leaves the table unchanged, and setting it with a different
kind raises a `RuntimeError` and leaves the table — in particular the
recorded entry — unchanged. -/
theorem c6_kind_table_immutable (tbl : SymbolKindTable) (func_name name : String)
    (kv kv' : Option Kind) (hrec : recordedKind tbl func_name name = some kv) :
    tbl.set func_name name kv = (.ok (), tbl)
    ∧ (kv' ≠ kv →
        tbl.set func_name name kv'
          = (.error (conflictMsg name func_name kv' kv), tbl)
        ∧ recordedKind tbl func_name name = some kv) := by
  by_cases hsv : is_state_variable name = true
  · simp only [recordedKind, hsv, if_pos] at hrec
    constructor
    · simp [SymbolKindTable.set, hsv, hrec]
    · intro hne
      refine ⟨?_, ?_⟩
      · simp [SymbolKindTable.set, hsv, hrec, Ne.symm hne]
      · simp [recordedKind, hsv, hrec]
  · simp only [recordedKind, hsv, if_neg, Bool.not_eq_true] at hrec
    cases hpf : slookup tbl.per_function_table func_name with
    | none =>
      rw [hpf] at hrec
      simp [slookup] at hrec
    | some l =>
      rw [hpf] at hrec
      simp only [Option.getD_some] at hrec
      constructor
      · simp [SymbolKindTable.set, hsv, hpf, hrec]
      · intro hne
        refine ⟨?_, ?_⟩
        · simp [SymbolKindTable.set, hsv, hpf, hrec, Ne.symm hne]
        · simp [recordedKind, hsv, hpf, hrec]

/-- Witness for C6: a table with "y" recorded as a real scalar in the
local table of function "f". -/
theorem c6_kind_table_immutable_witness :
    (SymbolKindTable.set
        { global_table := [("<t>", some (Kind.scalar true))]
          per_function_table := [("f", [("y", some (Kind.scalar true))])] }
        "f" "y" (some (Kind.scalar true))
      = (.ok (),
          { global_table := [("<t>", some (Kind.scalar true))]
            per_function_table := [("f", [("y", some (Kind.scalar true))])] }))
    ∧ (some (Kind.array true) ≠ some (Kind.scalar true) →
        SymbolKindTable.set
            { global_table := [("<t>", some (Kind.scalar true))]
              per_function_table := [("f", [("y", some (Kind.scalar true))])] }
            "f" "y" (some (Kind.array true))
          = (.error (conflictMsg "y" "f" (some (Kind.array true))
              (some (Kind.scalar true))),
              { global_table := [("<t>", some (Kind.scalar true))]
                per_function_table := [("f", [("y", some (Kind.scalar true))])] })
        ∧ recordedKind
            { global_table := [("<t>", some (Kind.scalar true))]
              per_function_table := [("f", [("y", some (Kind.scalar true))])] }
            "f" "y" = some (some (Kind.scalar true))) :=
  c6_kind_table_immutable
    { global_table := [("<t>", some (Kind.scalar true))]
      per_function_table := [("f", [("y", some (Kind.scalar true))])] }
    "f" "y" (some (Kind.scalar true)) (some (Kind.array true))
    (by decide)

/-! ## The whole-program kind solver (`SymbolKindFinder`, `data.py`
lines 333-386) -/

/-- The instruction variants distinguished by `SymbolKindFinder.__call__`:
`AssignSolved` (which raises `TODO`), `AssignExpression` (whose kind is
inferred), and everything else (skipped: "We only care about
assignments"). -/
inductive Insn where
  | assignSolved
  | assignExpression (assignee : String) (expression : KExpr)
  | other

/-- Fatal solver outcomes: the `TODO` raised for `AssignSolved`, a hard
kind-inference error, the `RuntimeError` from a conflicting
`SymbolKindTable.set`, and the `RuntimeError("failed to infer types")`
raised when a pass makes no progress. -/
inductive SolveErr where
  | todo
  | hardError (msg : String)
  | setConflict (msg : String)
  | failedToInfer
deriving DecidableEq

/-- One pass of the dual-queue work list of `SymbolKindFinder.__call__`
(lines 352-384): pop an instruction, infer, record on success (setting
the made-progress flag), push to the overflow buffer on
`UnableToInferKind`.  Python pops from the end of the list, so the caller
hands the queue reversed; the buffer grows by `append` at the end. -/
def processPassGo (tbl : SymbolKindTable) :
    List (String × Insn) → List (String × Insn) → Bool →
    Except SolveErr (SymbolKindTable × List (String × Insn) × Bool)
  | [], buffer, made => .ok (tbl, buffer, made)
  | (func_name, insn) :: rest, buffer, made =>
    match insn with
    | .assignSolved => .error .todo
    | .assignExpression assignee expression =>
      match kim tbl.global_table
          ((slookup tbl.per_function_table func_name).getD []) expression with
      | .error .unableToInferKind =>
        processPassGo tbl rest
          (buffer ++ [(func_name, .assignExpression assignee expression)]) made
      | .error (.hardError m) => .error (.hardError m)
      | .ok kind =>
        match tbl.set func_name assignee kind with
        | (.error m, _) => .error (.setConflict m)
        | (.ok (), tbl2) => processPassGo tbl2 rest buffer true
    | .other => processPassGo tbl rest buffer made

/-- One full pass over the primary queue, starting with an empty overflow
buffer and a cleared made-progress flag. -/
def processPass (tbl : SymbolKindTable) (queue : List (String × Insn)) :
    Except SolveErr (SymbolKindTable × List (String × Insn) × Bool) :=
  processPassGo tbl queue.reverse [] false

theorem processPassGo_nil (tbl : SymbolKindTable)
    (buffer : List (String × Insn)) (made : Bool) :
    processPassGo tbl [] buffer made = .ok (tbl, buffer, made) := by
  simp [processPassGo]

theorem processPassGo_cons_solved (tbl : SymbolKindTable) (func_name : String)
    (rest buffer : List (String × Insn)) (made : Bool) :
    processPassGo tbl ((func_name, .assignSolved) :: rest) buffer made
      = .error .todo := by
  simp [processPassGo]

theorem processPassGo_cons_other (tbl : SymbolKindTable) (func_name : String)
    (rest buffer : List (String × Insn)) (made : Bool) :
    processPassGo tbl ((func_name, .other) :: rest) buffer made
      = processPassGo tbl rest buffer made := by
  simp [processPassGo]

theorem processPassGo_cons_unable (tbl : SymbolKindTable) (func_name : String)
    (assignee : String) (expression : KExpr)
    (rest buffer : List (String × Insn)) (made : Bool)
    (hk : kim tbl.global_table
        ((slookup tbl.per_function_table func_name).getD []) expression
      = .error .unableToInferKind) :
    processPassGo tbl ((func_name, .assignExpression assignee expression) :: rest)
        buffer made
      = processPassGo tbl rest
          (buffer ++ [(func_name, .assignExpression assignee expression)]) made := by
  simp [processPassGo, hk]

theorem processPassGo_cons_hard (tbl : SymbolKindTable) (func_name : String)
    (assignee : String) (expression : KExpr)
    (rest buffer : List (String × Insn)) (made : Bool) (m : String)
    (hk : kim tbl.global_table
        ((slookup tbl.per_function_table func_name).getD []) expression
      = .error (.hardError m)) :
    processPassGo tbl ((func_name, .assignExpression assignee expression) :: rest)
        buffer made
      = .error (.hardError m) := by
  simp [processPassGo, hk]

theorem processPassGo_cons_ok_err (tbl : SymbolKindTable) (func_name : String)
    (assignee : String) (expression : KExpr)
    (rest buffer : List (String × Insn)) (made : Bool)
    (kind : Option Kind) (m : String) (tblx : SymbolKindTable)
    (hk : kim tbl.global_table
        ((slookup tbl.per_function_table func_name).getD []) expression
      = .ok kind)
    (hset : tbl.set func_name assignee kind = (.error m, tblx)) :
    processPassGo tbl ((func_name, .assignExpression assignee expression) :: rest)
        buffer made
      = .error (.setConflict m) := by
  simp [processPassGo, hk, hset]

theorem processPassGo_cons_ok_ok (tbl : SymbolKindTable) (func_name : String)
    (assignee : String) (expression : KExpr)
    (rest buffer : List (String × Insn)) (made : Bool)
    (kind : Option Kind) (tbl2 : SymbolKindTable)
    (hk : kim tbl.global_table
        ((slookup tbl.per_function_table func_name).getD []) expression
      = .ok kind)
    (hset : tbl.set func_name assignee kind = (.ok (), tbl2)) :
    processPassGo tbl ((func_name, .assignExpression assignee expression) :: rest)
        buffer made
      = processPassGo tbl2 rest buffer true := by
  simp [processPassGo, hk, hset]

theorem processPassGo_length :
    ∀ (q : List (String × Insn)) (tbl : SymbolKindTable)
      (buf : List (String × Insn)) (made : Bool)
      (tbl2 : SymbolKindTable) (buf2 : List (String × Insn)) (made2 : Bool),
      processPassGo tbl q buf made = .ok (tbl2, buf2, made2) →
      buf2.length ≤ buf.length + q.length
      ∧ (made = false → made2 = true → buf2.length < buf.length + q.length) := by
  intro q
  induction q with
  | nil =>
    intro tbl buf made tbl2 buf2 made2 h
    rw [processPassGo_nil] at h
    cases h
    refine ⟨by simp, ?_⟩
    intro h1 h2
    rw [h1] at h2
    cases h2
  | cons p rest ih =>
    intro tbl buf made tbl2 buf2 made2 h
    obtain ⟨func_name, insn⟩ := p
    cases insn with
    | assignSolved =>
      rw [processPassGo_cons_solved] at h
      cases h
    | other =>
      rw [processPassGo_cons_other] at h
      obtain ⟨h1, h2⟩ := ih tbl buf made tbl2 buf2 made2 h
      refine ⟨by simp only [List.length_cons]; omega, ?_⟩
      intro ha hb
      have := h2 ha hb
      simp only [List.length_cons]
      omega
    | assignExpression assignee expression =>
      cases hk : kim tbl.global_table
          ((slookup tbl.per_function_table func_name).getD []) expression with
      | error e =>
        cases e with
        | unableToInferKind =>
          rw [processPassGo_cons_unable tbl func_name assignee expression
            rest buf made hk] at h
          obtain ⟨h1, h2⟩ := ih tbl _ made tbl2 buf2 made2 h
          simp only [List.length_append, List.length_cons, List.length_nil] at h1 h2
          refine ⟨by simp only [List.length_cons]; omega, ?_⟩
          intro ha hb
          have := h2 ha hb
          simp only [List.length_cons]
          omega
        | hardError m =>
          rw [processPassGo_cons_hard tbl func_name assignee expression
            rest buf made m hk] at h
          cases h
      | ok kind =>
        rcases hset : tbl.set func_name assignee kind with ⟨res, tblr⟩
        cases res with
        | error m =>
          rw [processPassGo_cons_ok_err tbl func_name assignee expression
            rest buf made kind m tblr hk hset] at h
          cases h
        | ok u =>
          cases u
          rw [processPassGo_cons_ok_ok tbl func_name assignee expression
            rest buf made kind tblr hk hset] at h
          obtain ⟨h1, _⟩ := ih tblr buf true tbl2 buf2 made2 h
          refine ⟨by simp only [List.length_cons]; omega, ?_⟩
          intro _ _
          simp only [List.length_cons]
          omega

theorem processPass_progress (tbl : SymbolKindTable)
    (queue : List (String × Insn)) (tbl2 : SymbolKindTable)
    (buffer : List (String × Insn)) (made : Bool)
    (h : processPass tbl queue = .ok (tbl2, buffer, made)) :
    buffer.length ≤ queue.length
    ∧ (made = true → buffer.length < queue.length) := by
  obtain ⟨h1, h2⟩ := processPassGo_length queue.reverse tbl [] false tbl2 buffer made h
  simp only [List.length_nil, List.length_reverse, Nat.zero_add] at h1 h2
  exact ⟨h1, fun hm => h2 trivial hm⟩

/-- The dual-queue loop of `SymbolKindFinder.__call__`, organised by
passes: when the primary queue empties, finish if the overflow buffer is
empty, swap the overflow buffer in if the pass made progress, and
otherwise fail fatally ("failed to infer types").  The loop terminates
because every pass that makes progress strictly shrinks the queue. -/
def solveLoop (queue : List (String × Insn)) (tbl : SymbolKindTable) :
    Except SolveErr SymbolKindTable :=
  match h : processPass tbl queue with
  | .error e => .error e
  | .ok (tbl2, buffer, made) =>
    if buffer.isEmpty then .ok tbl2
    else if hm : made then solveLoop buffer tbl2
    else .error .failedToInfer
termination_by queue.length
decreasing_by
  exact (processPass_progress tbl queue tbl2 buffer made h).2 hm

/-- `SymbolKindFinder.__call__`: run the dual-queue loop on the gathered
instructions, starting from the initial table. -/
def symbolKindFinder (queue : List (String × Insn)) :
    Except SolveErr SymbolKindTable :=
  solveLoop queue initialSymbolKindTable

/-- C5 (amended): one pass of the solver strictly reduces the set of
unresolved instructions whenever it records progress, and after a pass
the loop finishes when the overflow buffer is empty, swaps the buffer in
when progress was made, and fails fatally with "failed to infer types"
exactly when the buffer is non-empty and no progress was made.  (Other
fatal failures — `AssignSolved`'s `TODO`, hard kind errors, conflicting
kinds — abort during the pass itself; and the loop is a total function,
so it cannot run forever.) -/
theorem c5_solver_progress_and_termination (tbl : SymbolKindTable)
    (queue : List (String × Insn)) (tbl2 : SymbolKindTable)
    (buffer : List (String × Insn)) (made : Bool)
    (h : processPass tbl queue = .ok (tbl2, buffer, made)) :
    buffer.length ≤ queue.length
    ∧ (made = true → buffer.length < queue.length)
    ∧ solveLoop queue tbl
        = (if buffer.isEmpty then .ok tbl2
           else if made then solveLoop buffer tbl2
           else .error .failedToInfer) := by
  obtain ⟨h1, h2⟩ := processPass_progress tbl queue tbl2 buffer made h
  refine ⟨h1, h2, ?_⟩
  rw [solveLoop]
  split
  · rename_i e heq
    rw [h] at heq
    cases heq
  · rename_i t2 b2 m2 heq
    rw [h] at heq
    injection heq with h3
    cases h3
    simp only [dite_eq_ite]

/-- C5 counterexample to the claim as stated: a queue holding an
`AssignSolved` instruction makes the solver fail fatally immediately
(with the `TODO` error), although the primary queue never emptied with a
non-empty overflow buffer and no recorded progress — so fatal failure
does not happen exactly under that condition. -/
theorem c5_fatal_failure_counterexample :
    solveLoop [("f", Insn.assignSolved)] initialSymbolKindTable = .error .todo
    ∧ SolveErr.todo ≠ SolveErr.failedToInfer := by
  have hp : processPass initialSymbolKindTable [("f", Insn.assignSolved)]
      = .error .todo := by
    simp [processPass, processPassGo]
  constructor
  · rw [solveLoop]
    split
    · rename_i e heq
      rw [hp] at heq
      cases heq
      rfl
    · rename_i t2 b2 m2 heq
      rw [hp] at heq
      cases heq
  · decide

/-- Witness for C5: a two-instruction queue in which `x := y` is popped
first (Python pops from the end), overflows, and `y := 0` then resolves,
recording progress. -/
theorem c5_solver_witness :
    (let queue := [("f", Insn.assignExpression "y" (.const false)),
                   ("f", Insn.assignExpression "x" (.var "y"))]
     let tbl2 : SymbolKindTable :=
       { global_table := [("<t>", some (Kind.scalar true)),
                          ("<dt>", some (Kind.scalar true))]
         per_function_table := [("f", [("y", some (Kind.scalar true))])] }
     let buffer := [("f", Insn.assignExpression "x" (.var "y"))]
     buffer.length ≤ queue.length
     ∧ (true = true → buffer.length < queue.length)
     ∧ solveLoop queue initialSymbolKindTable
         = (if buffer.isEmpty then .ok tbl2
            else if true then solveLoop buffer tbl2
            else .error .failedToInfer)) := by
  have hy : is_state_variable "y" = false := by decide
  have hset : SymbolKindTable.set
      { global_table := [("<t>", some (Kind.scalar true)),
                         ("<dt>", some (Kind.scalar true))]
        per_function_table := [] } "f" "y"
      (some (Kind.scalar true))
      = (.ok (),
          { global_table := [("<t>", some (Kind.scalar true)),
                             ("<dt>", some (Kind.scalar true))]
            per_function_table := [("f", [("y", some (Kind.scalar true))])] }) := by
    simp [SymbolKindTable.set, hy, slookup, sset]
  have h : processPass initialSymbolKindTable
      [("f", Insn.assignExpression "y" (.const false)),
       ("f", Insn.assignExpression "x" (.var "y"))]
      = .ok ({ global_table := [("<t>", some (Kind.scalar true)),
                                ("<dt>", some (Kind.scalar true))]
               per_function_table := [("f", [("y", some (Kind.scalar true))])] },
             [("f", Insn.assignExpression "x" (.var "y"))], true) := by
    simp [processPass, processPassGo, kim, slookup, initialSymbolKindTable, hset]
  exact c5_solver_progress_and_termination initialSymbolKindTable _ _ _ _ h

/-! ## The numpy interpretation backend (`src/leap/vm/exec_numpy.py`)

`run` (lines 104-142) is modelled as a fuel-indexed loop over the state
mapping (names to floating-point values, modelled as rationals).  The
step plan executed by `self.exec_controller(self)` lives in
`leap.vm.language` (outside the interpreter); the claims quantify over
its behaviour, so it enters the model as an oracle indexed by the
iteration number which either finishes normally or raises
`FailStepException`, in both cases having mutated the state mapping
arbitrarily.  The controller's inner per-step events are opaque to the
claims and are abstracted away. -/

/-- Names that survive the end-of-step cleanup (`run` lines 128-133):
state components, persistent parameters, and the integration
variables. -/
def isPermanentName (name : String) : Bool :=
  pyStartswith name "<state>" || pyStartswith name "<p>"
    || name == "<t>" || name == "<dt>"

/-- The interpreter's mutable state mapping. -/
abbrev StateMap := List (String × ℚ)

/-- The `finally` cleanup in `run`: every non-permanent (ephemeral
per-step) entry is deleted. -/
def cleanupState (σ : StateMap) : StateMap :=
  σ.filter (fun p => isPermanentName p.1)

/-- The events of `run` the claims are about. -/
inductive Event where
  | stepFailed (t : ℚ)
  | stepCompleted (t : ℚ)
deriving DecidableEq

/-- Outcome of one execution of the step plan: normal completion, or a
`FailStepException`; either way with the raw (pre-cleanup) state it
left behind. -/
inductive PlanOutcome where
  | success (σ : StateMap)
  | failStep (σ : StateMap)
deriving DecidableEq

/-- Ways the loop itself aborts: the fuel bound on the unbounded
`while True`, a missing `<t>`/`<dt>` key (Python `KeyError`), or the
failed `assert t <= t_end`. -/
inductive RunError where
  | outOfFuel
  | keyError
  | assertFailed
deriving DecidableEq

/-- Lines 109-116 of `run`: if `t + dt >= t_end`, assert `t <= t_end`,
clamp `<dt>` to `t_end - t` and mark the iteration as the last. -/
def adjustDt (t_end t dt : ℚ) (σ : StateMap) (last_step : Bool) :
    Except RunError (StateMap × Bool) :=
  if t + dt ≥ t_end then
    if t ≤ t_end then .ok (sset σ "<dt>" (t_end - t), true)
    else .error .assertFailed
  else .ok (σ, last_step)

/-- The observable outcome of one step-plan execution, after the
`finally` cleanup: the event time is read back from `<t>` in the
cleaned-up state (`self.state["<t>"]`), on the fail path as well. -/
inductive StepPhase where
  | failed (tf : ℚ) (σ2 : StateMap)
  | completed (tc : ℚ) (σ2 : StateMap)
  | errored (e : RunError)

/-- Execute the step plan (lines 119-137): run the plan, discard
non-permanent state in the `finally` block — also on the
`FailStepException` path — and read `<t>` back for the event. -/
def execStep (plan : Nat → StateMap → PlanOutcome) (i : Nat) (σ1 : StateMap) :
    StepPhase :=
  match plan i σ1 with
  | .failStep σraw =>
    match slookup (cleanupState σraw) "<t>" with
    | none => .errored .keyError
    | some tf => .failed tf (cleanupState σraw)
  | .success σraw =>
    match slookup (cleanupState σraw) "<t>" with
    | none => .errored .keyError
    | some tc => .completed tc (cleanupState σraw)

/-- `NumpyInterpreter.run` (lines 104-142), fuel-indexed.  Each iteration
reads `<t>` and `<dt>`, clamps `<dt>` at the end of integration, executes
the step plan, cleans up, and yields `StepFailed` (continuing, with the
`FailStepException` swallowed) or `StepCompleted` (breaking when the
iteration was marked last).  Returns the (event, state after the
iteration) pairs. -/
def runLoop (plan : Nat → StateMap → PlanOutcome) (t_end : ℚ) :
    Nat → Nat → Bool → StateMap → Except RunError (List (Event × StateMap))
  | 0, _, _, _ => .error .outOfFuel
  | fuel+1, i, last_step, σ =>
    match slookup σ "<t>", slookup σ "<dt>" with
    | some t, some dt =>
      match adjustDt t_end t dt σ last_step with
      | .error e => .error e
      | .ok (σ1, last1) =>
        match execStep plan i σ1 with
        | .errored e => .error e
        | .failed tf σ2 =>
          match runLoop plan t_end fuel (i+1) last1 σ2 with
          | .error e => .error e
          | .ok tr => .ok ((Event.stepFailed tf, σ2) :: tr)
        | .completed tc σ2 =>
          if last1 then .ok [(Event.stepCompleted tc, σ2)]
          else
            match runLoop plan t_end fuel (i+1) last1 σ2 with
            | .error e => .error e
            | .ok tr => .ok ((Event.stepCompleted tc, σ2) :: tr)
    | _, _ => .error .keyError

/-- The events of a run, without the intermediate states. -/
def runEvents (plan : Nat → StateMap → PlanOutcome) (t_end : ℚ)
    (fuel i : Nat) (last_step : Bool) (σ : StateMap) :
    Except RunError (List Event) :=
  match runLoop plan t_end fuel i last_step σ with
  | .error e => .error e
  | .ok tr => .ok (tr.map Prod.fst)

theorem slookup_filter_of_pred {β : Type} (f : String → Bool)
    (σ : List (String × β)) (k : String) (hk : f k = true) :
    slookup (σ.filter (fun p => f p.1)) k = slookup σ k := by
  induction σ with
  | nil => rfl
  | cons p rest ih =>
    by_cases hp : p.1 = k
    · have hfp : f p.1 = true := by rw [hp]; exact hk
      have hbeq : (p.1 == k) = true := by simp [hp]
      simp [List.filter_cons, hfp, slookup, List.find?_cons, hbeq]
    · have hbeq : (p.1 == k) = false := by simp [hp]
      by_cases hfp : f p.1 = true
      · simpa [List.filter_cons, hfp, slookup, List.find?_cons, hbeq] using ih
      · simp only [Bool.not_eq_true] at hfp
        simpa [List.filter_cons, hfp, slookup, List.find?_cons, hbeq] using ih

theorem slookup_cleanupState (σ : StateMap) (k : String)
    (hk : isPermanentName k = true) :
    slookup (cleanupState σ) k = slookup σ k :=
  slookup_filter_of_pred isPermanentName σ k hk

theorem cleanupState_all_permanent (σ : StateMap) :
    (cleanupState σ).all (fun q => isPermanentName q.1) = true := by
  rw [List.all_eq_true]
  intro a ha
  exact (List.mem_filter.mp ha).2

theorem execStep_failed_perm (plan : Nat → StateMap → PlanOutcome) (i : Nat)
    (σ1 : StateMap) (tf : ℚ) (σ2 : StateMap)
    (h : execStep plan i σ1 = .failed tf σ2) :
    σ2.all (fun q => isPermanentName q.1) = true := by
  cases hp : plan i σ1 with
  | success σraw =>
    cases hl : slookup (cleanupState σraw) "<t>" with
    | none => simp [execStep, hp, hl] at h
    | some tc => simp [execStep, hp, hl] at h
  | failStep σraw =>
    cases hl : slookup (cleanupState σraw) "<t>" with
    | none => simp [execStep, hp, hl] at h
    | some tc =>
      simp [execStep, hp, hl] at h
      obtain ⟨h1, h2⟩ := h
      rw [← h2]
      exact cleanupState_all_permanent σraw

theorem execStep_completed_perm (plan : Nat → StateMap → PlanOutcome) (i : Nat)
    (σ1 : StateMap) (tc : ℚ) (σ2 : StateMap)
    (h : execStep plan i σ1 = .completed tc σ2) :
    σ2.all (fun q => isPermanentName q.1) = true := by
  cases hp : plan i σ1 with
  | failStep σraw =>
    cases hl : slookup (cleanupState σraw) "<t>" with
    | none => simp [execStep, hp, hl] at h
    | some tv => simp [execStep, hp, hl] at h
  | success σraw =>
    cases hl : slookup (cleanupState σraw) "<t>" with
    | none => simp [execStep, hp, hl] at h
    | some tv =>
      simp [execStep, hp, hl] at h
      obtain ⟨h1, h2⟩ := h
      rw [← h2]
      exact cleanupState_all_permanent σraw

/-- C10: after every step iteration of `run` — whether it ends in
`StepCompleted` or in `StepFailed` — the interpreter's state mapping
contains only persistent entries (names starting with `<state>` or `<p>`,
plus `<t>` and `<dt>`), because the cleanup runs in a `finally` block
that also executes on the fail-step path. -/
theorem c10_state_cleanup (plan : Nat → StateMap → PlanOutcome) (t_end : ℚ) :
    ∀ (fuel i : Nat) (last_step : Bool) (σ : StateMap)
      (trace : List (Event × StateMap)),
      runLoop plan t_end fuel i last_step σ = .ok trace →
      trace.all (fun p => p.2.all (fun q => isPermanentName q.1)) = true := by
  intro fuel
  induction fuel with
  | zero =>
    intro i last_step σ trace h
    simp [runLoop] at h
  | succ n ih =>
    intro i last_step σ trace h
    cases hT : slookup σ "<t>" with
    | none => simp [runLoop, hT] at h
    | some t =>
      cases hD : slookup σ "<dt>" with
      | none => simp [runLoop, hT, hD] at h
      | some dt =>
        cases hA : adjustDt t_end t dt σ last_step with
        | error e => simp [runLoop, hT, hD, hA] at h
        | ok pair =>
          obtain ⟨σ1, last1⟩ := pair
          cases hE : execStep plan i σ1 with
          | errored e => simp [runLoop, hT, hD, hA, hE] at h
          | failed tf σ2 =>
            cases hR : runLoop plan t_end n (i+1) last1 σ2 with
            | error e => simp [runLoop, hT, hD, hA, hE, hR] at h
            | ok tr =>
              simp only [runLoop, hT, hD, hA, hE, hR] at h
              cases h
              simp only [List.all_cons, Bool.and_eq_true]
              exact ⟨execStep_failed_perm plan i σ1 tf σ2 hE,
                ih (i+1) last1 σ2 tr hR⟩
          | completed tc σ2 =>
            by_cases hL : last1 = true
            · subst hL
              simp only [runLoop, hT, hD, hA, hE, if_pos rfl] at h
              cases h
              simp only [List.all_cons, List.all_nil, Bool.and_true]
              exact execStep_completed_perm plan i σ1 tc σ2 hE
            · simp only [Bool.not_eq_true] at hL
              subst hL
              cases hR : runLoop plan t_end n (i+1) false σ2 with
              | error e => simp [runLoop, hT, hD, hA, hE, hR] at h
              | ok tr =>
                simp only [runLoop, hT, hD, hA, hE, hR, Bool.false_eq_true,
                  if_false] at h
                cases h
                simp only [List.all_cons, Bool.and_eq_true]
                exact ⟨execStep_completed_perm plan i σ1 tc σ2 hE,
                  ih (i+1) false σ2 tr hR⟩

/-- A step plan that advances `<t>` by the current `<dt>` (the assumption
of C2): the generic shape of a successful integration step. -/
def advanceState (σ : StateMap) : StateMap :=
  match slookup σ "<t>", slookup σ "<dt>" with
  | some t, some dt => sset σ "<t>" (t + dt)
  | _, _ => σ

def advPlan : Nat → StateMap → PlanOutcome :=
  fun _ σ => .success (advanceState σ)

/-- A step plan whose first execution assigns `<t> := 42` and then
signals fail-step, and which afterwards steps normally. -/
def evilPlan : Nat → StateMap → PlanOutcome
  | 0, σ => .failStep (sset σ "<t>" 42)
  | _+1, σ => .success (advanceState σ)

/-- A step plan that always signals fail-step without touching state. -/
def failPlan : Nat → StateMap → PlanOutcome :=
  fun _ σ => .failStep σ

theorem runLoop_step_failed (plan : Nat → StateMap → PlanOutcome) (t_end : ℚ)
    (fuel i : Nat) (last_step last1 : Bool) (σ σ1 σraw : StateMap) (t dt tf : ℚ)
    (ht : slookup σ "<t>" = some t) (hd : slookup σ "<dt>" = some dt)
    (hadj : adjustDt t_end t dt σ last_step = .ok (σ1, last1))
    (hplan : plan i σ1 = .failStep σraw)
    (htf : slookup σraw "<t>" = some tf) :
    runLoop plan t_end (fuel+1) i last_step σ
      = match runLoop plan t_end fuel (i+1) last1 (cleanupState σraw) with
        | .error e => .error e
        | .ok tr => .ok ((Event.stepFailed tf, cleanupState σraw) :: tr) := by
  have hc : slookup (cleanupState σraw) "<t>" = some tf := by
    rw [slookup_cleanupState σraw "<t>" (by decide)]
    exact htf
  have hexec : execStep plan i σ1 = .failed tf (cleanupState σraw) := by
    simp [execStep, hplan, hc]
  simp only [runLoop, ht, hd, hadj, hexec]

theorem runLoop_step_completed_last (plan : Nat → StateMap → PlanOutcome)
    (t_end : ℚ) (fuel i : Nat) (last_step : Bool) (σ σ1 σraw : StateMap)
    (t dt tc : ℚ)
    (ht : slookup σ "<t>" = some t) (hd : slookup σ "<dt>" = some dt)
    (hadj : adjustDt t_end t dt σ last_step = .ok (σ1, true))
    (hplan : plan i σ1 = .success σraw)
    (htc : slookup σraw "<t>" = some tc) :
    runLoop plan t_end (fuel+1) i last_step σ
      = .ok [(Event.stepCompleted tc, cleanupState σraw)] := by
  have hc : slookup (cleanupState σraw) "<t>" = some tc := by
    rw [slookup_cleanupState σraw "<t>" (by decide)]
    exact htc
  have hexec : execStep plan i σ1 = .completed tc (cleanupState σraw) := by
    simp [execStep, hplan, hc]
  simp [runLoop, ht, hd, hadj, hexec]

theorem runLoop_step_completed_more (plan : Nat → StateMap → PlanOutcome)
    (t_end : ℚ) (fuel i : Nat) (last_step : Bool) (σ σ1 σraw : StateMap)
    (t dt tc : ℚ)
    (ht : slookup σ "<t>" = some t) (hd : slookup σ "<dt>" = some dt)
    (hadj : adjustDt t_end t dt σ last_step = .ok (σ1, false))
    (hplan : plan i σ1 = .success σraw)
    (htc : slookup σraw "<t>" = some tc) :
    runLoop plan t_end (fuel+1) i last_step σ
      = match runLoop plan t_end fuel (i+1) false (cleanupState σraw) with
        | .error e => .error e
        | .ok tr => .ok ((Event.stepCompleted tc, cleanupState σraw) :: tr) := by
  have hc : slookup (cleanupState σraw) "<t>" = some tc := by
    rw [slookup_cleanupState σraw "<t>" (by decide)]
    exact htc
  have hexec : execStep plan i σ1 = .completed tc (cleanupState σraw) := by
    simp [execStep, hplan, hc]
  simp only [runLoop, ht, hd, hadj, hexec, Bool.false_eq_true, if_false]

/-- C3 (amended): when the step plan signals fail-step at some iteration,
the run yields a `StepFailed` event whose `t` field is the `<t>` entry of
the interpreter state left by the (partially executed) plan after
cleanup — which equals the pre-step value whenever the plan did not
modify `<t>` — the `FailStepException` never propagates to `run`'s
caller, and the loop continues with the next iteration rather than
terminating. -/
theorem c3_step_failed_continues (plan : Nat → StateMap → PlanOutcome)
    (t_end : ℚ) (fuel i : Nat) (last_step last1 : Bool)
    (σ σ1 σraw : StateMap) (t dt tf : ℚ)
    (ht : slookup σ "<t>" = some t) (hd : slookup σ "<dt>" = some dt)
    (hadj : adjustDt t_end t dt σ last_step = .ok (σ1, last1))
    (hplan : plan i σ1 = .failStep σraw)
    (htf : slookup σraw "<t>" = some tf) :
    runLoop plan t_end (fuel+1) i last_step σ
      = (match runLoop plan t_end fuel (i+1) last1 (cleanupState σraw) with
         | .error e => .error e
         | .ok tr => .ok ((Event.stepFailed tf, cleanupState σraw) :: tr))
    ∧ (∀ t1, slookup σ1 "<t>" = some t1 →
        slookup σraw "<t>" = slookup σ1 "<t>" → tf = t1) := by
  refine ⟨runLoop_step_failed plan t_end fuel i last_step last1 σ σ1 σraw
    t dt tf ht hd hadj hplan htf, ?_⟩
  intro t1 h1 h2
  rw [htf, h1] at h2
  exact Option.some.inj h2

/-- Witness for C3 at a plan that always signals fail-step without
touching state. -/
theorem c3_step_failed_continues_witness :
    (runLoop failPlan 10 1 0 false [("<t>", 0), ("<dt>", 1)]
      = (match runLoop failPlan 10 0 1 false
            (cleanupState [("<t>", 0), ("<dt>", 1)]) with
         | .error e => .error e
         | .ok tr =>
            .ok ((Event.stepFailed 0,
              cleanupState [("<t>", 0), ("<dt>", 1)]) :: tr)))
    ∧ (∀ t1, slookup [("<t>", (0:ℚ)), ("<dt>", 1)] "<t>" = some t1 →
        slookup [("<t>", (0:ℚ)), ("<dt>", 1)] "<t>"
          = slookup [("<t>", (0:ℚ)), ("<dt>", 1)] "<t>" → (0:ℚ) = t1) :=
  c3_step_failed_continues failPlan 10 0 0 false false
    [("<t>", 0), ("<dt>", 1)] [("<t>", 0), ("<dt>", 1)]
    [("<t>", 0), ("<dt>", 1)] 0 1 0
    (by decide) (by decide) (by norm_num [adjustDt]) rfl (by decide)

/-- C3 counterexample to the claim as stated: a step plan that assigns
`<t> := 42` and then signals fail-step makes `run` yield `StepFailed`
with `t = 42`, although `<t>` was `0` before the step began — the event
does not carry the pre-step time. -/
theorem c3_step_failed_time_counterexample :
    slookup [("<t>", (0:ℚ)), ("<dt>", 1)] "<t>" = some 0
    ∧ runEvents evilPlan 43 2 0 false [("<t>", 0), ("<dt>", 1)]
        = .ok [Event.stepFailed 42, Event.stepCompleted 43]
    ∧ (42 : ℚ) ≠ 0 := by
  refine ⟨by decide, ?_, by norm_num⟩
  have hclean : cleanupState [("<t>", (42:ℚ)), ("<dt>", 1)]
      = [("<t>", 42), ("<dt>", 1)] := by decide
  have hplan0 : evilPlan 0 [("<t>", (0:ℚ)), ("<dt>", 1)]
      = .failStep [("<t>", 42), ("<dt>", 1)] := by decide
  have hadj0 : adjustDt 43 0 1 [("<t>", (0:ℚ)), ("<dt>", 1)] false
      = .ok ([("<t>", 0), ("<dt>", 1)], false) := by norm_num [adjustDt]
  have h1 := runLoop_step_failed evilPlan 43 1 0 false false
    [("<t>", 0), ("<dt>", 1)] [("<t>", 0), ("<dt>", 1)]
    [("<t>", 42), ("<dt>", 1)] 0 1 42
    (by decide) (by decide) hadj0 hplan0 (by decide)
  have hadj1 : adjustDt 43 42 1 [("<t>", (42:ℚ)), ("<dt>", 1)] false
      = .ok ([("<dt>", 1), ("<t>", 42)], true) := by
    norm_num [adjustDt, sset, List.filter]
    simp
  have hadv : evilPlan 1 [("<dt>", (1:ℚ)), ("<t>", 42)]
      = .success [("<t>", 43), ("<dt>", 1)] := by
    show PlanOutcome.success (advanceState [("<dt>", (1:ℚ)), ("<t>", 42)]) = _
    simp [advanceState, slookup, List.find?, sset, List.filter]
    norm_num
  have h2 := runLoop_step_completed_last evilPlan 43 0 1 false
    [("<t>", 42), ("<dt>", 1)] [("<dt>", 1), ("<t>", 42)]
    [("<t>", 43), ("<dt>", 1)] 42 1 43
    (by decide) (by decide) hadj1 hadv (by decide)
  have hclean2 : cleanupState [("<t>", (43:ℚ)), ("<dt>", 1)]
      = [("<t>", 43), ("<dt>", 1)] := by decide
  rw [hclean] at h1
  rw [hclean2] at h2
  simp only [runEvents, h1, h2, List.map]

/-- The assumption of C2 about the step plan: every execution succeeds
and advances `<t>` by the current `<dt>`, leaving `<dt>` alone. -/
def PlanAdvances (plan : Nat → StateMap → PlanOutcome) : Prop :=
  ∀ (i : Nat) (σ : StateMap) (t dt : ℚ),
    slookup σ "<t>" = some t → slookup σ "<dt>" = some dt →
    ∃ σ2, plan i σ = .success σ2 ∧ slookup σ2 "<t>" = some (t + dt)
      ∧ slookup σ2 "<dt>" = some dt

theorem runLoop_clamped_iteration (plan : Nat → StateMap → PlanOutcome)
    (t_end dt0 : ℚ) (hplan : PlanAdvances plan) (fuel i : Nat) (t : ℚ)
    (σ : StateMap)
    (ht : slookup σ "<t>" = some t) (hd : slookup σ "<dt>" = some dt0)
    (hle : t ≤ t_end) (hclamp : t_end ≤ t + dt0) :
    ∃ σf, runLoop plan t_end (fuel+1) i false σ
      = .ok [(Event.stepCompleted t_end, σf)] := by
  have hadj : adjustDt t_end t dt0 σ false
      = .ok (sset σ "<dt>" (t_end - t), true) := by
    simp [adjustDt, hclamp, hle]
  have ht1 : slookup (sset σ "<dt>" (t_end - t)) "<t>" = some t := by
    rw [slookup_sset_ne _ _ _ _ (by decide)]
    exact ht
  have hd1 : slookup (sset σ "<dt>" (t_end - t)) "<dt>" = some (t_end - t) :=
    slookup_sset_self _ _ _
  obtain ⟨σ2, hp, ht2, _⟩ := hplan i _ t (t_end - t) ht1 hd1
  have harith : t + (t_end - t) = t_end := by ring
  rw [harith] at ht2
  exact ⟨cleanupState σ2,
    runLoop_step_completed_last plan t_end fuel i false σ _ σ2 t dt0
      t_end ht hd hadj hp ht2⟩

theorem runLoop_reaches (plan : Nat → StateMap → PlanOutcome) (t_end dt0 : ℚ)
    (hplan : PlanAdvances plan) (hdt : 0 < dt0) :
    ∀ (n : Nat) (t : ℚ) (σ : StateMap) (i : Nat),
      slookup σ "<t>" = some t → slookup σ "<dt>" = some dt0 →
      t ≤ t_end → ⌈(t_end - t) / dt0⌉ ≤ (n : ℤ) →
      ∃ trace, runLoop plan t_end (n+1) i false σ = .ok trace
        ∧ (∃ pre σf, trace = pre ++ [(Event.stepCompleted t_end, σf)])
        ∧ (∀ e ∈ trace.map Prod.fst, ∃ tc, e = .stepCompleted tc ∧ tc ≤ t_end) := by
  intro n
  induction n with
  | zero =>
    intro t σ i ht hd hle hceil
    have hx : (t_end - t) / dt0 ≤ ((0:ℤ) : ℚ) := Int.ceil_le.mp hceil
    have hx0 : (t_end - t) / dt0 ≤ 0 := by exact_mod_cast hx
    have hte : t_end - t ≤ 0 := by
      rcases div_nonpos_iff.mp hx0 with ⟨h1, h2⟩ | ⟨h1, h2⟩
      · linarith
      · linarith
    have hclamp : t_end ≤ t + dt0 := by linarith
    obtain ⟨σf, hrun⟩ := runLoop_clamped_iteration plan t_end dt0 hplan 0 i t σ
      ht hd hle hclamp
    refine ⟨[(Event.stepCompleted t_end, σf)], hrun, ⟨[], σf, by simp⟩, ?_⟩
    intro e he
    simp only [List.map_cons, List.map_nil, List.mem_singleton] at he
    exact ⟨t_end, he, le_refl t_end⟩
  | succ n ih =>
    intro t σ i ht hd hle hceil
    by_cases hclamp : t_end ≤ t + dt0
    · obtain ⟨σf, hrun⟩ := runLoop_clamped_iteration plan t_end dt0 hplan (n+1) i
        t σ ht hd hle hclamp
      refine ⟨[(Event.stepCompleted t_end, σf)], hrun, ⟨[], σf, by simp⟩, ?_⟩
      intro e he
      simp only [List.map_cons, List.map_nil, List.mem_singleton] at he
      exact ⟨t_end, he, le_refl t_end⟩
    · have hlt : t + dt0 < t_end := lt_of_not_le hclamp
      have hadj : adjustDt t_end t dt0 σ false = .ok (σ, false) := by
        simp [adjustDt, hclamp]
      obtain ⟨σ2, hp, ht2, hd2⟩ := hplan i σ t dt0 ht hd
      have ht2c : slookup (cleanupState σ2) "<t>" = some (t + dt0) := by
        rw [slookup_cleanupState σ2 "<t>" (by decide)]
        exact ht2
      have hd2c : slookup (cleanupState σ2) "<dt>" = some dt0 := by
        rw [slookup_cleanupState σ2 "<dt>" (by decide)]
        exact hd2
      have hne : dt0 ≠ 0 := ne_of_gt hdt
      have hceil2 : ⌈(t_end - (t + dt0)) / dt0⌉ ≤ (n : ℤ) := by
        have heq : (t_end - (t + dt0)) / dt0 = (t_end - t) / dt0 - 1 := by
          field_simp
          ring
        rw [heq, Int.ceil_sub_one]
        push_cast at hceil
        omega
      obtain ⟨tr, hrun, ⟨pre, σf, htr⟩, hall⟩ := ih (t + dt0) (cleanupState σ2)
        (i+1) ht2c hd2c (le_of_lt hlt) hceil2
      have hstep := runLoop_step_completed_more plan t_end (n+1) i false σ σ σ2
        t dt0 (t + dt0) ht hd hadj hp ht2
      rw [hrun] at hstep
      refine ⟨(Event.stepCompleted (t + dt0), cleanupState σ2) :: tr, hstep,
        ⟨(Event.stepCompleted (t + dt0), cleanupState σ2) :: pre, σf, by
          simp [htr]⟩, ?_⟩
      intro e he
      simp only [List.map_cons, List.mem_cons] at he
      rcases he with he | he
      · exact ⟨t + dt0, he, le_of_lt hlt⟩
      · exact hall e he

/-- C2: for a `run(t_end)` started from a set-up state with
`t_start ≤ t_end` and positive `dt_start`, assuming each successful
execution of the step plan advances `<t>` by the current `<dt>`: every
iteration clamps `<dt>` so `<t> + <dt>` does not exceed `t_end`
(consequently no `StepCompleted` event carries `t > t_end`), and the run
eventually yields a `StepCompleted` with `t` exactly `t_end`, stopping
after the iteration on which `<dt>` was clamped (the trace ends with that
event). -/
theorem c2_run_clamps_and_reaches_t_end (plan : Nat → StateMap → PlanOutcome)
    (t_end t0 dt0 : ℚ) (σ0 : StateMap)
    (hplan : PlanAdvances plan)
    (ht : slookup σ0 "<t>" = some t0) (hd : slookup σ0 "<dt>" = some dt0)
    (hle : t0 ≤ t_end) (hdt : 0 < dt0) :
    ∃ fuel trace, runLoop plan t_end fuel 0 false σ0 = .ok trace
      ∧ (∃ pre σf, trace = pre ++ [(Event.stepCompleted t_end, σf)])
      ∧ (∀ e ∈ trace.map Prod.fst, ∃ tc, e = .stepCompleted tc ∧ tc ≤ t_end) := by
  obtain ⟨trace, hrun, hend, hall⟩ := runLoop_reaches plan t_end dt0 hplan hdt
    (⌈(t_end - t0) / dt0⌉.toNat) t0 σ0 0 ht hd hle (Int.self_le_toNat _)
  exact ⟨⌈(t_end - t0) / dt0⌉.toNat + 1, trace, hrun, hend, hall⟩

theorem advPlan_advances : PlanAdvances advPlan := by
  intro i σ t dt ht hd
  refine ⟨sset σ "<t>" (t + dt), ?_, slookup_sset_self σ "<t>" (t + dt), ?_⟩
  · simp [advPlan, advanceState, ht, hd]
  · rw [slookup_sset_ne _ _ _ _ (by decide)]
    exact hd

/-- Witness for C2: `set_up(t_start=0, dt_start=1, {y: …})` then
`run(t_end=5/2)` under the advancing plan. -/
theorem c2_run_witness :
    ∃ fuel trace,
      runLoop advPlan (5/2) fuel 0 false
          [("<t>", 0), ("<dt>", 1), ("<state>y", 2)] = .ok trace
      ∧ (∃ pre σf, trace = pre ++ [(Event.stepCompleted (5/2), σf)])
      ∧ (∀ e ∈ trace.map Prod.fst, ∃ tc, e = .stepCompleted tc ∧ tc ≤ 5/2) :=
  c2_run_clamps_and_reaches_t_end advPlan (5/2) 0 1
    [("<t>", 0), ("<dt>", 1), ("<state>y", 2)] advPlan_advances
    (by decide) (by decide) (by norm_num) (by norm_num)

/-- Witness for C10: a concrete one-step run; the state paired with its
`StepCompleted` event holds only permanent entries. -/
theorem c10_state_cleanup_witness :
    ([(Event.stepCompleted 1, [("<t>", (1:ℚ)), ("<dt>", 1)])]
        : List (Event × StateMap)).all
      (fun p => p.2.all (fun q => isPermanentName q.1)) = true := by
  have hadj : adjustDt 1 0 1 [("<t>", (0:ℚ)), ("<dt>", 1)] false
      = .ok ([("<dt>", 1), ("<t>", 0)], true) := by
    norm_num [adjustDt, sset, List.filter]
    simp
  have hadv : advPlan 0 [("<dt>", (1:ℚ)), ("<t>", 0)]
      = .success [("<t>", 1), ("<dt>", 1)] := by
    show PlanOutcome.success (advanceState [("<dt>", (1:ℚ)), ("<t>", 0)]) = _
    simp [advanceState, slookup, List.find?, sset, List.filter]
  have h := runLoop_step_completed_last advPlan 1 1 0 false
    [("<t>", 0), ("<dt>", 1)] [("<dt>", 1), ("<t>", 0)]
    [("<t>", 1), ("<dt>", 1)] 0 1 1 (by decide) (by decide) hadj hadv (by decide)
  have hclean : cleanupState [("<t>", (1:ℚ)), ("<dt>", 1)]
      = [("<t>", 1), ("<dt>", 1)] := by decide
  rw [hclean] at h
  exact c10_state_cleanup advPlan 1 2 0 false [("<t>", 0), ("<dt>", 1)] _ h

/-! ## `NumpyInterpreter.set_up` (`exec_numpy.py` lines 86-96) -/

/-- The loop of `set_up` over the components mapping: a key already
bearing a reserved prefix (any name starting with "<") raises
`ValueError`; otherwise the value is stored under `"<state>" + key`. -/
def setUpComponents {β : Type} :
    List (String × β) → List (String × β) → Except String (List (String × β))
  | [], σ => .ok σ
  | (key, val) :: rest, σ =>
    if pyStartswith key "<" then .error "state variables may not start with '<'"
    else setUpComponents rest (sset σ ("<state>" ++ key) val)

/-- `set_up(t_start, dt_start, state)`: seed `<t>` and `<dt>`, then store
each component under its `<state>`-prefixed name. -/
def set_up {β : Type} (t_start dt_start : β) (components : List (String × β))
    (σ : List (String × β)) : Except String (List (String × β)) :=
  setUpComponents components (sset (sset σ "<t>" t_start) "<dt>" dt_start)

theorem string_append_left_cancel (s a b : String) (h : s ++ a = s ++ b) :
    a = b := by
  have h2 := congrArg String.data h
  simp only [String.data_append] at h2
  exact String.ext (List.append_cancel_left h2)

theorem t_ne_state_append (k : String) : "<t>" ≠ "<state>" ++ k := by
  intro h
  have hlen := congrArg String.length h
  rw [String.length_append] at hlen
  have h1 : "<t>".length = 3 := by decide
  have h2 : "<state>".length = 7 := by decide
  rw [h1, h2] at hlen
  omega

theorem dt_ne_state_append (k : String) : "<dt>" ≠ "<state>" ++ k := by
  intro h
  have hlen := congrArg String.length h
  rw [String.length_append] at hlen
  have h1 : "<dt>".length = 4 := by decide
  have h2 : "<state>".length = 7 := by decide
  rw [h1, h2] at hlen
  omega

theorem setUpComponents_clean {β : Type} :
    ∀ (comps : List (String × β)) (σ : List (String × β)),
      (∀ k ∈ comps.map Prod.fst, pyStartswith k "<" = false) →
      (comps.map Prod.fst).Nodup →
      ∃ σ2, setUpComponents comps σ = .ok σ2
        ∧ (∀ p ∈ comps, slookup σ2 ("<state>" ++ p.1) = some p.2)
        ∧ (∀ n, (∀ k ∈ comps.map Prod.fst, n ≠ "<state>" ++ k) →
            slookup σ2 n = slookup σ n) := by
  intro comps
  induction comps with
  | nil =>
    intro σ _ _
    exact ⟨σ, rfl, by simp, fun n _ => rfl⟩
  | cons p rest ih =>
    intro σ hclean hnd
    obtain ⟨key, val⟩ := p
    have hkey : pyStartswith key "<" = false := hclean key (by simp)
    have hrest_clean : ∀ k ∈ rest.map Prod.fst, pyStartswith k "<" = false :=
      fun k hk => hclean k (by simp [hk])
    rw [List.map_cons, List.nodup_cons] at hnd
    obtain ⟨hkey_not, hnd2⟩ := hnd
    obtain ⟨σ2, hok, hmem, hun⟩ := ih (sset σ ("<state>" ++ key) val)
      hrest_clean hnd2
    refine ⟨σ2, ?_, ?_, ?_⟩
    · simp [setUpComponents, hkey, hok]
    · intro q hq
      rcases List.mem_cons.mp hq with hq | hq
      · subst hq
        rw [hun ("<state>" ++ key) ?_]
        · exact slookup_sset_self σ ("<state>" ++ key) val
        · intro k hk hcontra
          exact hkey_not (string_append_left_cancel "<state>" key k hcontra ▸ hk)
      · exact hmem q hq
    · intro n hn
      have h1 : ∀ k ∈ rest.map Prod.fst, n ≠ "<state>" ++ k :=
        fun k hk => hn k (by simp [hk])
      rw [hun n h1]
      exact slookup_sset_ne _ _ _ _ (hn key (by simp))

theorem setUpComponents_bad {β : Type} :
    ∀ (comps : List (String × β)) (σ : List (String × β)),
      (∃ k ∈ comps.map Prod.fst, pyStartswith k "<" = true) →
      setUpComponents comps σ
        = .error "state variables may not start with '<'" := by
  intro comps
  induction comps with
  | nil =>
    intro σ h
    simp at h
  | cons p rest ih =>
    intro σ h
    obtain ⟨k, hk, hbad⟩ := h
    obtain ⟨key, val⟩ := p
    simp only [List.map_cons, List.mem_cons] at hk
    rcases hk with hk | hk
    · subst hk
      simp [setUpComponents, hbad]
    · by_cases hkey : pyStartswith key "<" = true
      · simp [setUpComponents, hkey]
      · simp only [Bool.not_eq_true] at hkey
        simp only [setUpComponents, hkey, Bool.false_eq_true, if_false]
        exact ih _ ⟨k, hk, hbad⟩

/-- C9: `set_up(t_start, dt_start, components)` sets `<t>` to `t_start`
and `<dt>` to `dt_start`, stores each component value under `"<state>"`
prepended to its key, and raises a `ValueError` whenever some component
name already bears a reserved prefix; for a components mapping free of
such names it succeeds and touches exactly the three persistent
namespaces, leaving every other name unchanged. -/
theorem c9_set_up {β : Type} (t_start dt_start : β)
    (components : List (String × β)) (σ : List (String × β))
    (hnd : (components.map Prod.fst).Nodup) :
    ((∀ k ∈ components.map Prod.fst, pyStartswith k "<" = false) →
      ∃ σ2, set_up t_start dt_start components σ = .ok σ2
        ∧ slookup σ2 "<t>" = some t_start
        ∧ slookup σ2 "<dt>" = some dt_start
        ∧ (∀ p ∈ components, slookup σ2 ("<state>" ++ p.1) = some p.2)
        ∧ (∀ n, n ≠ "<t>" → n ≠ "<dt>" →
            (∀ k ∈ components.map Prod.fst, n ≠ "<state>" ++ k) →
            slookup σ2 n = slookup σ n))
    ∧ ((∃ k ∈ components.map Prod.fst, pyStartswith k "<" = true) →
        set_up t_start dt_start components σ
          = .error "state variables may not start with '<'") := by
  constructor
  · intro hclean
    obtain ⟨σ2, hok, hmem, hun⟩ := setUpComponents_clean components
      (sset (sset σ "<t>" t_start) "<dt>" dt_start) hclean hnd
    refine ⟨σ2, ?_, ?_, ?_, hmem, ?_⟩
    · simpa [set_up] using hok
    · rw [hun "<t>" (fun k _ => t_ne_state_append k)]
      rw [slookup_sset_ne _ _ _ _ (by decide)]
      exact slookup_sset_self σ "<t>" t_start
    · rw [hun "<dt>" (fun k _ => dt_ne_state_append k)]
      exact slookup_sset_self _ "<dt>" dt_start
    · intro n hnt hndt hns
      rw [hun n hns, slookup_sset_ne _ _ _ _ hndt, slookup_sset_ne _ _ _ _ hnt]
  · intro hbad
    simpa [set_up] using
      setUpComponents_bad components
        (sset (sset σ "<t>" t_start) "<dt>" dt_start) hbad

/-- Witness for C9 at `set_up(0, 1, {y: 2})` from an empty state. -/
theorem c9_set_up_witness :
    ((∀ k ∈ ([("y", 2)] : List (String × ℚ)).map Prod.fst,
        pyStartswith k "<" = false) →
      ∃ σ2, set_up (0:ℚ) 1 [("y", 2)] [] = .ok σ2
        ∧ slookup σ2 "<t>" = some 0
        ∧ slookup σ2 "<dt>" = some 1
        ∧ (∀ p ∈ ([("y", 2)] : List (String × ℚ)),
            slookup σ2 ("<state>" ++ p.1) = some p.2)
        ∧ (∀ n, n ≠ "<t>" → n ≠ "<dt>" →
            (∀ k ∈ ([("y", 2)] : List (String × ℚ)).map Prod.fst,
              n ≠ "<state>" ++ k) →
            slookup σ2 n = slookup ([] : List (String × ℚ)) n))
    ∧ ((∃ k ∈ ([("y", 2)] : List (String × ℚ)).map Prod.fst,
          pyStartswith k "<" = true) →
        set_up (0:ℚ) 1 [("y", 2)] []
          = .error "state variables may not start with '<'") :=
  c9_set_up (0:ℚ) 1 [("y", 2)] [] (by decide)

/-! ## Constant collapsing (`src/dagrt/expression.py` lines 95-232)

The expression fragment `collapse_constants` treats specially (sums and
products, handled by `map_commut_assoc`) plus representatives of the
leaves and of the nodes handled by `IdentityMapper`'s default rebuild
(quotients).  Values are rationals.  A sum or product node is assumed to
have at least one child where a theorem needs it (`_ConstantFindingMapper`
crashes on `reduce` over an empty child tuple before the collapsing
mapper ever runs). -/

inductive Expr where
  | const (value : ℚ)
  | var (name : String)
  | sum (children : List Expr)
  | prod (children : List Expr)
  | quot (numerator denominator : Expr)

/-- `_is_atomic`: a variable or a literal constant. -/
def isAtomic : Expr → Bool
  | .const _ => true
  | .var _ => true
  | _ => false

mutual

/-- `_ConstantFindingMapper`: a subexpression is "constant" when no
declared free variable occurs beneath it (`is_constant[expr]`). -/
def isConstant (fv : List String) : Expr → Bool
  | .const _ => true
  | .var n => !(fv.contains n)
  | .sum cs => isConstantList fv cs
  | .prod cs => isConstantList fv cs
  | .quot a b => isConstant fv a && isConstant fv b
termination_by e => sizeOf e

def isConstantList (fv : List String) : List Expr → Bool
  | [] => true
  | c :: cs => isConstant fv c && isConstantList fv cs
termination_by cs => sizeOf cs

end

/-- The collapsing mapper's mutable context: the fresh-name counter
(`new_var_func`) and the emitted assignments (`self.assignments`, in
insertion order). -/
structure CState where
  counter : Nat
  assignments : List (String × Expr)

/-- How a collapsing run dies: the `assert non_constants` and the
`self.non_constants` attribute error on line 192 of `expression.py`. -/
inductive CollapseErr where
  | assertionError
  | attributeError
deriving DecidableEq

/-- `combine_func`: `Sum` or `Product`. -/
def combineFunc (isSum : Bool) (children : List Expr) : Expr :=
  if isSum then .sum children else .prod children

mutual

/-- The overridden `rec` of `_ExpressionCollapsingMapper`: an atomic or
non-constant subexpression is dispatched normally; a non-atomic constant
subexpression is replaced by a fresh variable, recording the
assignment. -/
def crec (fv : List String) (fresh : Nat → String) (e : Expr) (st : CState) :
    Except CollapseErr (Expr × CState) :=
  if isAtomic e || !(isConstant fv e) then cdispatch fv fresh e st
  else
    .ok (.var (fresh st.counter),
      ⟨st.counter + 1, st.assignments ++ [(fresh st.counter, e)]⟩)
termination_by (sizeOf e, 1)

/-- `Mapper.__call__` dispatch (also used by `IdentityMapper.rec`'s
default): leaves map to themselves, sums and products go through
`map_commut_assoc`, and other nodes (quotients) are rebuilt with `rec`
applied to their children.  Note that `_ExpressionCollapsingMapper`'s
`__call__` enters here directly, without the constant-replacement check
of the overridden `rec`. -/
def cdispatch (fv : List String) (fresh : Nat → String) (e : Expr)
    (st : CState) : Except CollapseErr (Expr × CState) :=
  match e with
  | .const c => .ok (.const c, st)
  | .var n => .ok (.var n, st)
  | .sum cs => mapCommutAssoc fv fresh true cs st
  | .prod cs => mapCommutAssoc fv fresh false cs st
  | .quot a b =>
    match crec fv fresh a st with
    | .error e1 => .error e1
    | .ok (a2, st1) =>
      match crec fv fresh b st1 with
      | .error e1 => .error e1
      | .ok (b2, st2) => .ok (.quot a2 b2, st2)
termination_by (sizeOf e, 0)

/-- `map_commut_assoc` (lines 166-205): partition the children into the
constant group and the recursively processed non-constant group; fold the
constant group (kept inline when it is a single atomic leaf, otherwise
hoisted into a fresh-named assignment); combine.  When the constant group
is empty and exactly one non-constant child remains, line 192 reads the
undefined attribute `self.non_constants` and raises `AttributeError`. -/
def mapCommutAssoc (fv : List String) (fresh : Nat → String) (isSum : Bool)
    (children : List Expr) (st : CState) : Except CollapseErr (Expr × CState) :=
  match partitionChildren fv fresh children st with
  | .error e1 => .error e1
  | .ok (constants, non_constants, st1) =>
    if constants.isEmpty then
      match non_constants with
      | [] => .error .assertionError
      | [_] => .error .attributeError
      | _ => .ok (combineFunc isSum non_constants, st1)
    else
      let folded : Expr × CState :=
        match constants with
        | [c] =>
          if isAtomic c then (c, st1)
          else (.var (fresh st1.counter),
            ⟨st1.counter + 1, st1.assignments ++ [(fresh st1.counter, c)]⟩)
        | _ =>
          (.var (fresh st1.counter),
            ⟨st1.counter + 1,
              st1.assignments ++ [(fresh st1.counter, combineFunc isSum constants)]⟩)
      if non_constants.isEmpty then .ok (folded.1, folded.2)
      else .ok (combineFunc isSum (folded.1 :: non_constants), folded.2)
termination_by (sizeOf children, 1)

/-- The child loop of `map_commut_assoc`: constant children are collected
raw, the others are processed with `rec` in order. -/
def partitionChildren (fv : List String) (fresh : Nat → String)
    (children : List Expr) (st : CState) :
    Except CollapseErr (List Expr × List Expr × CState) :=
  match children with
  | [] => .ok ([], [], st)
  | child :: rest =>
    if isConstant fv child then
      match partitionChildren fv fresh rest st with
      | .error e1 => .error e1
      | .ok (ks, ns, st1) => .ok (child :: ks, ns, st1)
    else
      match crec fv fresh child st with
      | .error e1 => .error e1
      | .ok (child2, st1) =>
        match partitionChildren fv fresh rest st1 with
        | .error e1 => .error e1
        | .ok (ks, ns, st2) => .ok (ks, child2 :: ns, st2)
termination_by (sizeOf children, 0)

end

/-- `collapse_constants(expression, free_variables, assign_func,
new_var_func)`: run the collapsing mapper (whose `__call__` dispatches
directly) from a fresh context and emit the recorded assignments, in
insertion order, through `assign_func`. -/
def collapse_constants (expression : Expr) (free_variables : List String)
    (fresh : Nat → String) : Except CollapseErr (Expr × List (String × Expr)) :=
  match cdispatch free_variables fresh expression ⟨0, []⟩ with
  | .error e1 => .error e1
  | .ok (e2, st) => .ok (e2, st.assignments)

/-- C1 (the code slip): on a sum with a single non-constant child,
`map_commut_assoc` reaches `return self.non_constants[0]` (line 192 of
`expression.py`), which reads an attribute that does not exist — the
local is called `non_constants` — so `collapse_constants` raises
`AttributeError` instead of returning a rewritten expression. -/
theorem c1_collapse_constants_crash :
    collapse_constants (.sum [.var "x"]) ["x"] (fun n => "_flt_" ++ toString n)
      = .error .attributeError := by
  simp [collapse_constants, cdispatch, mapCommutAssoc, partitionChildren,
    crec, isConstant, isAtomic]

/-! ### Evaluation of the collapsing fragment

`EvaluationMapper` semantics for the fragment: sums and products fold
their children (addition and multiplication are commutative and
associative, so the fold direction is immaterial), quotients divide.
Used to state that collapsing preserves evaluation. -/

mutual

def evalE (env : String → ℚ) : Expr → ℚ
  | .const c => c
  | .var n => env n
  | .sum cs => evalSum env cs
  | .prod cs => evalProd env cs
  | .quot a b => evalE env a / evalE env b
termination_by e => sizeOf e

def evalSum (env : String → ℚ) : List Expr → ℚ
  | [] => 0
  | c :: cs => evalE env c + evalSum env cs
termination_by cs => sizeOf cs

def evalProd (env : String → ℚ) : List Expr → ℚ
  | [] => 1
  | c :: cs => evalE env c * evalProd env cs
termination_by cs => sizeOf cs

end

mutual

/-- The variables occurring in an expression. -/
def exprVars : Expr → List String
  | .const _ => []
  | .var n => [n]
  | .sum cs => exprVarsList cs
  | .prod cs => exprVarsList cs
  | .quot a b => exprVars a ++ exprVars b
termination_by e => sizeOf e

def exprVarsList : List Expr → List String
  | [] => []
  | c :: cs => exprVars c ++ exprVarsList cs
termination_by cs => sizeOf cs

end

theorem evalSum_partition (env : String → ℚ) (p : Expr → Bool) :
    ∀ cs : List Expr,
      evalSum env cs
        = evalSum env (cs.filter p) + evalSum env (cs.filter (fun c => !(p c))) := by
  intro cs
  induction cs with
  | nil => simp [evalSum]
  | cons c rest ih =>
    by_cases hc : p c = true
    · rw [List.filter_cons_of_pos hc, List.filter_cons_of_neg (by simp [hc])]
      simp only [evalSum, ih]
      ring
    · rw [List.filter_cons_of_neg (by simp [hc]),
        List.filter_cons_of_pos (by simp [hc])]
      simp only [evalSum, ih]
      ring

theorem evalProd_partition (env : String → ℚ) (p : Expr → Bool) :
    ∀ cs : List Expr,
      evalProd env cs
        = evalProd env (cs.filter p) * evalProd env (cs.filter (fun c => !(p c))) := by
  intro cs
  induction cs with
  | nil => simp [evalProd]
  | cons c rest ih =>
    by_cases hc : p c = true
    · rw [List.filter_cons_of_pos hc, List.filter_cons_of_neg (by simp [hc])]
      simp only [evalProd, ih]
      ring
    · rw [List.filter_cons_of_neg (by simp [hc]),
        List.filter_cons_of_pos (by simp [hc])]
      simp only [evalProd, ih]
      ring

theorem exprVars_mem_of_mem :
    ∀ (cs : List Expr) (c : Expr), c ∈ cs →
      ∀ x ∈ exprVars c, x ∈ exprVarsList cs := by
  intro cs
  induction cs with
  | nil => intro c hc; simp at hc
  | cons q rest ih =>
    intro c hc x hx
    rcases List.mem_cons.mp hc with hc | hc
    · subst hc
      simp only [exprVarsList, List.mem_append]
      exact Or.inl hx
    · simp only [exprVarsList, List.mem_append]
      exact Or.inr (ih c hc x hx)

theorem exprVarsList_filter (p : Expr → Bool) :
    ∀ (cs : List Expr), ∀ x ∈ exprVarsList (cs.filter p), x ∈ exprVarsList cs := by
  intro cs
  induction cs with
  | nil => simp
  | cons c rest ih =>
    intro x hx
    by_cases hc : p c = true
    · rw [List.filter_cons_of_pos hc] at hx
      simp only [exprVarsList, List.mem_append] at hx ⊢
      rcases hx with hx | hx
      · exact Or.inl hx
      · exact Or.inr (ih x hx)
    · rw [List.filter_cons_of_neg (by simp [hc])] at hx
      simp only [exprVarsList, List.mem_append]
      exact Or.inr (ih x hx)

theorem slookup_eq_none_of_no_key {β : Type} :
    ∀ (l : List (String × β)) (x : String), (∀ p ∈ l, p.1 ≠ x) →
      slookup l x = none := by
  intro l
  induction l with
  | nil => intro x _; rfl
  | cons q rest ih =>
    intro x h
    have hq : (q.1 == x) = false := by
      simp only [beq_eq_false_iff_ne, ne_eq]
      exact h q (by simp)
    simp only [slookup, List.find?_cons, hq]
    exact ih x (fun p hp => h p (by simp [hp]))

theorem slookup_of_mem_nodup {β : Type} :
    ∀ (l : List (String × β)) (p : String × β), p ∈ l →
      (l.map Prod.fst).Nodup → slookup l p.1 = some p.2 := by
  intro l
  induction l with
  | nil => intro p hp; simp at hp
  | cons q rest ih =>
    intro p hp hnd
    rw [List.map_cons, List.nodup_cons] at hnd
    obtain ⟨hq_not, hnd2⟩ := hnd
    rcases List.mem_cons.mp hp with hp | hp
    · subst hp
      simp [slookup, List.find?_cons]
    · have hne : (q.1 == p.1) = false := by
        simp only [beq_eq_false_iff_ne, ne_eq]
        intro hcontra
        exact hq_not (hcontra ▸ List.mem_map_of_mem Prod.fst hp)
      simp only [slookup, List.find?_cons, hne]
      exact ih p hp hnd2

theorem crec_dispatch_eq (fv : List String) (fresh : Nat → String) (e : Expr)
    (st : CState) (hcond : (isAtomic e || !(isConstant fv e)) = true) :
    crec fv fresh e st = cdispatch fv fresh e st := by
  simp [crec, hcond]

theorem crec_emit_eq (fv : List String) (fresh : Nat → String) (e : Expr)
    (st : CState) (hcond : (isAtomic e || !(isConstant fv e)) = false) :
    crec fv fresh e st
      = .ok (.var (fresh st.counter),
          ⟨st.counter + 1, st.assignments ++ [(fresh st.counter, e)]⟩) := by
  simp only [crec, hcond, Bool.false_eq_true, if_false]

theorem cdispatch_const (fv : List String) (fresh : Nat → String) (c : ℚ)
    (st : CState) : cdispatch fv fresh (.const c) st = .ok (.const c, st) := by
  simp [cdispatch]

theorem cdispatch_var (fv : List String) (fresh : Nat → String) (n : String)
    (st : CState) : cdispatch fv fresh (.var n) st = .ok (.var n, st) := by
  simp [cdispatch]

theorem cdispatch_sum (fv : List String) (fresh : Nat → String)
    (cs : List Expr) (st : CState) :
    cdispatch fv fresh (.sum cs) st = mapCommutAssoc fv fresh true cs st := by
  simp [cdispatch]

theorem cdispatch_prod (fv : List String) (fresh : Nat → String)
    (cs : List Expr) (st : CState) :
    cdispatch fv fresh (.prod cs) st = mapCommutAssoc fv fresh false cs st := by
  simp [cdispatch]

theorem cdispatch_quot_ok (fv : List String) (fresh : Nat → String)
    (a b a2 b2 : Expr) (st st1 st2 : CState)
    (h1 : crec fv fresh a st = .ok (a2, st1))
    (h2 : crec fv fresh b st1 = .ok (b2, st2)) :
    cdispatch fv fresh (.quot a b) st = .ok (.quot a2 b2, st2) := by
  simp [cdispatch, h1, h2]

theorem partition_nil (fv : List String) (fresh : Nat → String) (st : CState) :
    partitionChildren fv fresh [] st = .ok ([], [], st) := by
  simp [partitionChildren]

theorem partition_cons_const (fv : List String) (fresh : Nat → String)
    (child : Expr) (rest : List Expr) (st : CState)
    (hc : isConstant fv child = true) :
    partitionChildren fv fresh (child :: rest) st
      = match partitionChildren fv fresh rest st with
        | .error e1 => .error e1
        | .ok (ks, ns, st1) => .ok (child :: ks, ns, st1) := by
  simp [partitionChildren, hc]

theorem partition_cons_nonconst (fv : List String) (fresh : Nat → String)
    (child child2 : Expr) (rest : List Expr) (st st1 : CState)
    (hc : isConstant fv child = false)
    (h1 : crec fv fresh child st = .ok (child2, st1)) :
    partitionChildren fv fresh (child :: rest) st
      = match partitionChildren fv fresh rest st1 with
        | .error e1 => .error e1
        | .ok (ks, ns, st2) => .ok (ks, child2 :: ns, st2) := by
  simp [partitionChildren, hc, h1]

theorem mca_no_const_multi (fv : List String) (fresh : Nat → String)
    (isSum : Bool) (cs : List Expr) (st st1 : CState) (n1 n2 : Expr)
    (ns : List Expr)
    (hp : partitionChildren fv fresh cs st = .ok ([], n1 :: n2 :: ns, st1)) :
    mapCommutAssoc fv fresh isSum cs st
      = .ok (combineFunc isSum (n1 :: n2 :: ns), st1) := by
  simp [mapCommutAssoc, hp]

theorem mca_single_atomic_nil (fv : List String) (fresh : Nat → String)
    (isSum : Bool) (cs : List Expr) (st st1 : CState) (c : Expr)
    (hp : partitionChildren fv fresh cs st = .ok ([c], [], st1))
    (hat : isAtomic c = true) :
    mapCommutAssoc fv fresh isSum cs st = .ok (c, st1) := by
  simp [mapCommutAssoc, hp, hat]

theorem mca_single_atomic_cons (fv : List String) (fresh : Nat → String)
    (isSum : Bool) (cs : List Expr) (st st1 : CState) (c n1 : Expr)
    (ns : List Expr)
    (hp : partitionChildren fv fresh cs st = .ok ([c], n1 :: ns, st1))
    (hat : isAtomic c = true) :
    mapCommutAssoc fv fresh isSum cs st
      = .ok (combineFunc isSum (c :: n1 :: ns), st1) := by
  simp [mapCommutAssoc, hp, hat]

theorem mca_single_nonatomic_nil (fv : List String) (fresh : Nat → String)
    (isSum : Bool) (cs : List Expr) (st st1 : CState) (c : Expr)
    (hp : partitionChildren fv fresh cs st = .ok ([c], [], st1))
    (hat : isAtomic c = false) :
    mapCommutAssoc fv fresh isSum cs st
      = .ok (.var (fresh st1.counter),
          ⟨st1.counter + 1, st1.assignments ++ [(fresh st1.counter, c)]⟩) := by
  simp [mapCommutAssoc, hp, hat]

theorem mca_single_nonatomic_cons (fv : List String) (fresh : Nat → String)
    (isSum : Bool) (cs : List Expr) (st st1 : CState) (c n1 : Expr)
    (ns : List Expr)
    (hp : partitionChildren fv fresh cs st = .ok ([c], n1 :: ns, st1))
    (hat : isAtomic c = false) :
    mapCommutAssoc fv fresh isSum cs st
      = .ok (combineFunc isSum (.var (fresh st1.counter) :: n1 :: ns),
          ⟨st1.counter + 1, st1.assignments ++ [(fresh st1.counter, c)]⟩) := by
  simp [mapCommutAssoc, hp, hat]

theorem mca_multi_const_nil (fv : List String) (fresh : Nat → String)
    (isSum : Bool) (cs : List Expr) (st st1 : CState) (c1 c2 : Expr)
    (ks : List Expr)
    (hp : partitionChildren fv fresh cs st = .ok (c1 :: c2 :: ks, [], st1)) :
    mapCommutAssoc fv fresh isSum cs st
      = .ok (.var (fresh st1.counter),
          ⟨st1.counter + 1,
            st1.assignments
              ++ [(fresh st1.counter, combineFunc isSum (c1 :: c2 :: ks))]⟩) := by
  simp [mapCommutAssoc, hp]

theorem mca_multi_const_cons (fv : List String) (fresh : Nat → String)
    (isSum : Bool) (cs : List Expr) (st st1 : CState) (c1 c2 n1 : Expr)
    (ks ns : List Expr)
    (hp : partitionChildren fv fresh cs st
      = .ok (c1 :: c2 :: ks, n1 :: ns, st1)) :
    mapCommutAssoc fv fresh isSum cs st
      = .ok (combineFunc isSum (.var (fresh st1.counter) :: n1 :: ns),
          ⟨st1.counter + 1,
            st1.assignments
              ++ [(fresh st1.counter, combineFunc isSum (c1 :: c2 :: ks))]⟩) := by
  simp [mapCommutAssoc, hp]

/-! ### The collapsing invariant

`CollapseOut fresh st st2 vars P` packages what one collapsing step
guarantees: the counter grows; the assignment list is extended by entries
whose names are fresh names with indices in the counter window and whose
right-hand sides only mention variables of the processed expression; a
well-formed context stays well-formed; and under any environment pair in
which the new names are bound to the values of their right-hand sides
(and the original variables agree), the postcondition `P` holds. -/

def NewEntriesOK (fresh : Nat → String) (lo hi : Nat) (varsBound : List String)
    (Δ : List (String × Expr)) : Prop :=
  ∀ p ∈ Δ, ∃ j, lo ≤ j ∧ j < hi ∧ p.1 = fresh j
    ∧ ∀ x ∈ exprVars p.2, x ∈ varsBound

def StOK (fresh : Nat → String) (st : CState) : Prop :=
  (∀ p ∈ st.assignments, ∃ j, j < st.counter ∧ p.1 = fresh j)
  ∧ (st.assignments.map Prod.fst).Nodup

def EnvOK (env env2 : String → ℚ) (vars : List String)
    (Δ : List (String × Expr)) : Prop :=
  (∀ x ∈ vars, env2 x = env x) ∧ (∀ p ∈ Δ, env2 p.1 = evalE env p.2)

def CollapseOut (fresh : Nat → String) (st st2 : CState)
    (vars : List String) (P : (String → ℚ) → (String → ℚ) → Prop) : Prop :=
  st.counter ≤ st2.counter
  ∧ ∃ Δ, st2.assignments = st.assignments ++ Δ
    ∧ NewEntriesOK fresh st.counter st2.counter vars Δ
    ∧ (StOK fresh st → StOK fresh st2)
    ∧ ∀ env env2, EnvOK env env2 vars Δ → P env env2

theorem CollapseOut.of_eq {fresh : Nat → String} {st st2 : CState}
    {vars : List String} {P : (String → ℚ) → (String → ℚ) → Prop}
    (heq : st2 = st)
    (hP : ∀ env env2 : String → ℚ, (∀ x ∈ vars, env2 x = env x) → P env env2) :
    CollapseOut fresh st st2 vars P := by
  subst heq
  refine ⟨le_refl _, [], by simp, by simp [NewEntriesOK], id, ?_⟩
  intro env env2 henv
  exact hP env env2 henv.1

theorem CollapseOut.mono_env {fresh : Nat → String} {st st2 : CState}
    {vars : List String} {P Q : (String → ℚ) → (String → ℚ) → Prop}
    (h : CollapseOut fresh st st2 vars P)
    (hPQ : ∀ env env2 : String → ℚ, (∀ x ∈ vars, env2 x = env x) →
      P env env2 → Q env env2) :
    CollapseOut fresh st st2 vars Q := by
  obtain ⟨hmono, Δ, hasg, hnew, hst, heval⟩ := h
  exact ⟨hmono, Δ, hasg, hnew, hst,
    fun env env2 henv => hPQ env env2 henv.1 (heval env env2 henv)⟩

theorem CollapseOut.weaken {fresh : Nat → String} {st st2 : CState}
    {vars vars2 : List String} {P : (String → ℚ) → (String → ℚ) → Prop}
    (h : CollapseOut fresh st st2 vars P)
    (hsub : ∀ x ∈ vars, x ∈ vars2) :
    CollapseOut fresh st st2 vars2 P := by
  obtain ⟨hmono, Δ, hasg, hnew, hst, heval⟩ := h
  refine ⟨hmono, Δ, hasg, ?_, hst, ?_⟩
  · intro p hp
    obtain ⟨j, hj1, hj2, hj3, hj4⟩ := hnew p hp
    exact ⟨j, hj1, hj2, hj3, fun x hx => hsub x (hj4 x hx)⟩
  · intro env env2 henv
    exact heval env env2 ⟨fun x hx => henv.1 x (hsub x hx), henv.2⟩

theorem CollapseOut.seq {fresh : Nat → String} {st st1 st2 : CState}
    {vars : List String} {P1 P2 : (String → ℚ) → (String → ℚ) → Prop}
    (h1 : CollapseOut fresh st st1 vars P1)
    (h2 : CollapseOut fresh st1 st2 vars P2) :
    CollapseOut fresh st st2 vars (fun env env2 => P1 env env2 ∧ P2 env env2) := by
  obtain ⟨hm1, Δ1, ha1, hn1, hs1, he1⟩ := h1
  obtain ⟨hm2, Δ2, ha2, hn2, hs2, he2⟩ := h2
  refine ⟨le_trans hm1 hm2, Δ1 ++ Δ2, by rw [ha2, ha1, List.append_assoc], ?_,
    fun hst => hs2 (hs1 hst), ?_⟩
  · intro p hp
    rcases List.mem_append.mp hp with hp | hp
    · obtain ⟨j, hj1, hj2, hj3, hj4⟩ := hn1 p hp
      exact ⟨j, hj1, lt_of_lt_of_le hj2 hm2, hj3, hj4⟩
    · obtain ⟨j, hj1, hj2, hj3, hj4⟩ := hn2 p hp
      exact ⟨j, le_trans hm1 hj1, hj2, hj3, hj4⟩
  · intro env env2 henv
    have henv1 : EnvOK env env2 vars Δ1 :=
      ⟨henv.1, fun p hp => henv.2 p (List.mem_append.mpr (Or.inl hp))⟩
    have henv2 : EnvOK env env2 vars Δ2 :=
      ⟨henv.1, fun p hp => henv.2 p (List.mem_append.mpr (Or.inr hp))⟩
    exact ⟨he1 env env2 henv1, he2 env env2 henv2⟩

theorem CollapseOut.emit {fresh : Nat → String}
    (hinj : Function.Injective fresh) (st : CState) (a : Expr)
    {vars : List String} (hsub : ∀ x ∈ exprVars a, x ∈ vars) :
    CollapseOut fresh st
      ⟨st.counter + 1, st.assignments ++ [(fresh st.counter, a)]⟩ vars
      (fun env env2 => env2 (fresh st.counter) = evalE env a) := by
  refine ⟨Nat.le_succ _, [(fresh st.counter, a)], rfl, ?_, ?_, ?_⟩
  · intro p hp
    rw [List.mem_singleton] at hp
    subst hp
    exact ⟨st.counter, le_refl _, Nat.lt_succ_self _, rfl, hsub⟩
  · intro hst
    obtain ⟨hidx, hnd⟩ := hst
    constructor
    · intro p hp
      rcases List.mem_append.mp hp with hp | hp
      · obtain ⟨j, hj1, hj2⟩ := hidx p hp
        exact ⟨j, Nat.lt_succ_of_lt hj1, hj2⟩
      · rw [List.mem_singleton] at hp
        subst hp
        exact ⟨st.counter, Nat.lt_succ_self _, rfl⟩
    · rw [List.map_append, List.map_singleton]
      rw [List.nodup_append]
      refine ⟨hnd, List.nodup_singleton _, ?_⟩
      intro x hx hx2
      rw [List.mem_singleton] at hx2
      subst hx2
      rw [List.mem_map] at hx
      obtain ⟨p, hp, hpx⟩ := hx
      obtain ⟨j, hj1, hj2⟩ := hidx p hp
      rw [hj2] at hpx
      have := hinj hpx
      omega
  · intro env env2 henv
    exact henv.2 (fresh st.counter, a) (List.mem_singleton.mpr rfl)

theorem partition_cons_const_ok (fv : List String) (fresh : Nat → String)
    (child : Expr) (rest ks ns : List Expr) (st st1 : CState)
    (hc : isConstant fv child = true)
    (hrest : partitionChildren fv fresh rest st = .ok (ks, ns, st1)) :
    partitionChildren fv fresh (child :: rest) st
      = .ok (child :: ks, ns, st1) := by
  simp [partitionChildren, hc, hrest]

theorem partition_cons_nonconst_ok (fv : List String) (fresh : Nat → String)
    (child child2 : Expr) (rest ks ns : List Expr) (st st1 st2 : CState)
    (hc : isConstant fv child = false)
    (h1 : crec fv fresh child st = .ok (child2, st1))
    (hrest : partitionChildren fv fresh rest st1 = .ok (ks, ns, st2)) :
    partitionChildren fv fresh (child :: rest) st
      = .ok (ks, child2 :: ns, st2) := by
  simp [partitionChildren, hc, h1, hrest]

theorem evalE_atomic_agree (c : Expr) (hat : isAtomic c = true)
    (vars : List String) (hmem : ∀ x ∈ exprVars c, x ∈ vars)
    (env env2 : String → ℚ) (hagree : ∀ x ∈ vars, env2 x = env x) :
    evalE env2 c = evalE env c := by
  cases c with
  | const v => simp [evalE]
  | var n =>
    simp only [evalE]
    exact hagree n (hmem n (by simp [exprVars]))
  | sum cs => simp [isAtomic] at hat
  | prod cs => simp [isAtomic] at hat
  | quot a b => simp [isAtomic] at hat


theorem CollapseOut.weakenTo {fresh : Nat → String} {st st2 : CState}
    {vars : List String} {P : (String → ℚ) → (String → ℚ) → Prop}
    (vars2 : List String) (h : CollapseOut fresh st st2 vars P)
    (hsub : ∀ x ∈ vars, x ∈ vars2) :
    CollapseOut fresh st st2 vars2 P :=
  h.weaken hsub

theorem CollapseOut.emitTo {fresh : Nat → String}
    (hinj : Function.Injective fresh) (st : CState) (a : Expr)
    (vars : List String) (hsub : ∀ x ∈ exprVars a, x ∈ vars) :
    CollapseOut fresh st
      ⟨st.counter + 1, st.assignments ++ [(fresh st.counter, a)]⟩ vars
      (fun env env2 => env2 (fresh st.counter) = evalE env a) :=
  CollapseOut.emit hinj st a hsub

theorem combineFunc_true (l : List Expr) : combineFunc true l = .sum l := rfl

theorem combineFunc_false (l : List Expr) : combineFunc false l = .prod l := rfl

theorem evalE_var (env : String → ℚ) (n : String) :
    evalE env (.var n) = env n := by
  simp [evalE]

theorem evalE_sum (env : String → ℚ) (l : List Expr) :
    evalE env (.sum l) = evalSum env l := by
  simp [evalE]

theorem evalE_prod (env : String → ℚ) (l : List Expr) :
    evalE env (.prod l) = evalProd env l := by
  simp [evalE]

theorem evalSum_nil (env : String → ℚ) : evalSum env [] = 0 := by
  simp [evalSum]

theorem evalSum_cons (env : String → ℚ) (c : Expr) (cs : List Expr) :
    evalSum env (c :: cs) = evalE env c + evalSum env cs := by
  simp [evalSum]

theorem evalProd_nil (env : String → ℚ) : evalProd env [] = 1 := by
  simp [evalProd]

theorem evalProd_cons (env : String → ℚ) (c : Expr) (cs : List Expr) :
    evalProd env (c :: cs) = evalE env c * evalProd env cs := by
  simp [evalProd]

theorem exprVars_sum (cs : List Expr) :
    exprVars (.sum cs) = exprVarsList cs := by
  simp [exprVars]

theorem exprVars_prod (cs : List Expr) :
    exprVars (.prod cs) = exprVarsList cs := by
  simp [exprVars]

theorem exprVars_combineFunc (isSum : Bool) (l : List Expr) :
    exprVars (combineFunc isSum l) = exprVarsList l := by
  cases isSum
  · simp [combineFunc, exprVars]
  · simp [combineFunc, exprVars]

mutual

/-- `crec` (the recursive entry of `_ExpressionCollapsingMapper.rec`),
whenever it succeeds, extends the assignment context monotonically and
returns an expression that evaluates like its input under any environment
that binds the fresh names to the values of their right-hand sides. -/
theorem crec_spec (fv : List String) (fresh : Nat → String)
    (hinj : Function.Injective fresh) (e : Expr) :
    ∀ (st : CState) (e2 : Expr) (st2 : CState),
      crec fv fresh e st = .ok (e2, st2) →
      CollapseOut fresh st st2 (exprVars e)
        (fun env env2 => evalE env2 e2 = evalE env e) := by
  intro st e2 st2 h
  by_cases hcond : (isAtomic e || !(isConstant fv e)) = true
  · rw [crec_dispatch_eq fv fresh e st hcond] at h
    exact cdispatch_spec fv fresh hinj e st e2 st2 h
  · simp only [Bool.not_eq_true] at hcond
    rw [crec_emit_eq fv fresh e st hcond] at h
    have hemit := CollapseOut.emitTo hinj st e (exprVars e) (fun x hx => hx)
    cases h
    refine hemit.mono_env ?_
    intro env env2 _ hp
    rw [evalE_var]
    exact hp
termination_by (sizeOf e, 1)

/-- The dispatch layer of the collapsing mapper satisfies the same
contract as `crec`: constants and variables pass through unchanged, sums
and products go through `mapCommutAssoc`, and quotients recurse on both
operands. -/
theorem cdispatch_spec (fv : List String) (fresh : Nat → String)
    (hinj : Function.Injective fresh) (e : Expr) :
    ∀ (st : CState) (e2 : Expr) (st2 : CState),
      cdispatch fv fresh e st = .ok (e2, st2) →
      CollapseOut fresh st st2 (exprVars e)
        (fun env env2 => evalE env2 e2 = evalE env e) := by
  intro st e2 st2 h
  cases e with
  | const c =>
    rw [cdispatch_const] at h
    cases h
    exact CollapseOut.of_eq rfl (fun env env2 _ => by simp [evalE])
  | var n =>
    rw [cdispatch_var] at h
    cases h
    refine CollapseOut.of_eq rfl (fun env env2 hagree => ?_)
    rw [evalE_var, evalE_var]
    exact hagree n (by simp [exprVars])
  | sum cs =>
    rw [cdispatch_sum] at h
    have S := mca_spec fv fresh hinj true cs st e2 st2 h
    rw [exprVars_sum]
    refine S.mono_env ?_
    intro env env2 _ hp
    rw [hp, combineFunc_true]
  | prod cs =>
    rw [cdispatch_prod] at h
    have S := mca_spec fv fresh hinj false cs st e2 st2 h
    rw [exprVars_prod]
    refine S.mono_env ?_
    intro env env2 _ hp
    rw [hp, combineFunc_false]
  | quot a b =>
    cases h1 : crec fv fresh a st with
    | error er => simp [cdispatch, h1] at h
    | ok pair1 =>
      obtain ⟨a2, stx⟩ := pair1
      cases h2 : crec fv fresh b stx with
      | error er => simp [cdispatch, h1, h2] at h
      | ok pair2 =>
        obtain ⟨b2, sty⟩ := pair2
        have S1 := crec_spec fv fresh hinj a st a2 stx h1
        have S2 := crec_spec fv fresh hinj b stx b2 sty h2
        have W1 := S1.weakenTo (exprVars (.quot a b))
          (fun x hx => by
            simp only [exprVars, List.mem_append]
            exact Or.inl hx)
        have W2 := S2.weakenTo (exprVars (.quot a b))
          (fun x hx => by
            simp only [exprVars, List.mem_append]
            exact Or.inr hx)
        rw [cdispatch_quot_ok fv fresh a b a2 b2 st stx sty h1 h2] at h
        cases h
        refine (W1.seq W2).mono_env ?_
        intro env env2 _ hp
        obtain ⟨hp1, hp2⟩ := hp
        simp [evalE, hp1, hp2]
termination_by (sizeOf e, 0)

/-- The child-partitioning pass returns exactly the constant children in
its first component, and its second component evaluates (as a sum and as
a product) like the non-constant children of the input. -/
theorem partition_spec (fv : List String) (fresh : Nat → String)
    (hinj : Function.Injective fresh) (cs : List Expr) :
    ∀ (st : CState) (ks ns : List Expr) (st2 : CState),
      partitionChildren fv fresh cs st = .ok (ks, ns, st2) →
      ks = cs.filter (fun c => isConstant fv c)
      ∧ CollapseOut fresh st st2 (exprVarsList cs)
          (fun env env2 =>
            evalSum env2 ns
              = evalSum env (cs.filter (fun c => !(isConstant fv c)))
            ∧ evalProd env2 ns
              = evalProd env (cs.filter (fun c => !(isConstant fv c)))) := by
  intro st ks ns st2 h
  cases cs with
  | nil =>
    rw [partition_nil] at h
    cases h
    refine ⟨by simp, CollapseOut.of_eq rfl (fun env env2 _ => ?_)⟩
    simp [evalSum_nil, evalProd_nil]
  | cons child rest =>
    by_cases hc : isConstant fv child = true
    · cases hrest : partitionChildren fv fresh rest st with
      | error er => simp [partitionChildren, hc, hrest] at h
      | ok triple =>
        obtain ⟨ks1, ns1, stx⟩ := triple
        obtain ⟨hks, Sr⟩ := partition_spec fv fresh hinj rest st ks1 ns1 stx
          hrest
        have Wr := Sr.weakenTo (exprVarsList (child :: rest))
          (fun x hx => by
            simp only [exprVarsList, List.mem_append]
            exact Or.inr hx)
        rw [partition_cons_const_ok fv fresh child rest ks1 ns1 st stx hc
          hrest] at h
        cases h
        refine ⟨?_, ?_⟩
        · rw [List.filter_cons_of_pos hc, hks]
        · refine Wr.mono_env ?_
          intro env env2 _ hp
          rw [List.filter_cons_of_neg (by simp [hc])]
          exact hp
    · simp only [Bool.not_eq_true] at hc
      cases h1 : crec fv fresh child st with
      | error er => simp [partitionChildren, hc, h1] at h
      | ok pair =>
        obtain ⟨child2, stx⟩ := pair
        cases hrest : partitionChildren fv fresh rest stx with
        | error er => simp [partitionChildren, hc, h1, hrest] at h
        | ok triple =>
          obtain ⟨ks1, ns1, sty⟩ := triple
          have Sc := crec_spec fv fresh hinj child st child2 stx h1
          obtain ⟨hks, Sr⟩ := partition_spec fv fresh hinj rest stx ks1 ns1
            sty hrest
          have Wc := Sc.weakenTo (exprVarsList (child :: rest))
            (fun x hx => by
              simp only [exprVarsList, List.mem_append]
              exact Or.inl hx)
          have Wr := Sr.weakenTo (exprVarsList (child :: rest))
            (fun x hx => by
              simp only [exprVarsList, List.mem_append]
              exact Or.inr hx)
          rw [partition_cons_nonconst_ok fv fresh child child2 rest ks1 ns1
            st stx sty hc h1 hrest] at h
          cases h
          refine ⟨?_, ?_⟩
          · rw [List.filter_cons_of_neg (by simp [hc])]
            exact hks
          · refine (Wc.seq Wr).mono_env ?_
            intro env env2 _ hp
            obtain ⟨hpc, hp1, hp2⟩ := hp
            rw [List.filter_cons_of_pos (by simp [hc])]
            constructor
            · rw [evalSum_cons, evalSum_cons, hpc, hp1]
            · rw [evalProd_cons, evalProd_cons, hpc, hp2]
termination_by (sizeOf cs, 0)

/-- `mapCommutAssoc` (the `map_sum` / `map_product_like` body of
`_ExpressionCollapsingMapper`), whenever it succeeds, returns an
expression that evaluates like the original sum or product of the given
children. -/
theorem mca_spec (fv : List String) (fresh : Nat → String)
    (hinj : Function.Injective fresh) (isSum : Bool) (cs : List Expr) :
    ∀ (st : CState) (e2 : Expr) (st2 : CState),
      mapCommutAssoc fv fresh isSum cs st = .ok (e2, st2) →
      CollapseOut fresh st st2 (exprVarsList cs)
        (fun env env2 => evalE env2 e2 = evalE env (combineFunc isSum cs)) := by
  intro st e2 st2 h
  cases hpart : partitionChildren fv fresh cs st with
  | error er => simp [mapCommutAssoc, hpart] at h
  | ok triple =>
    obtain ⟨ks, ns, st1⟩ := triple
    obtain ⟨hks, Sp⟩ := partition_spec fv fresh hinj cs st ks ns st1 hpart
    have key_sum : ∀ env : String → ℚ,
        evalSum env cs = evalSum env ks
          + evalSum env (cs.filter (fun c => !(isConstant fv c))) := by
      intro env
      rw [hks]
      exact evalSum_partition env _ cs
    have key_prod : ∀ env : String → ℚ,
        evalProd env cs = evalProd env ks
          * evalProd env (cs.filter (fun c => !(isConstant fv c))) := by
      intro env
      rw [hks]
      exact evalProd_partition env _ cs
    cases ks with
    | nil =>
      cases ns with
      | nil => simp [mapCommutAssoc, hpart] at h
      | cons n1 ns1 =>
        cases ns1 with
        | nil => simp [mapCommutAssoc, hpart] at h
        | cons n2 ns2 =>
          rw [mca_no_const_multi fv fresh isSum cs st st1 n1 n2 ns2 hpart] at h
          cases h
          refine Sp.mono_env ?_
          intro env env2 _ hp
          obtain ⟨hp1, hp2⟩ := hp
          cases isSum
          · rw [combineFunc_false, combineFunc_false, evalE_prod, evalE_prod,
              hp2, key_prod env, evalProd_nil]
            ring
          · rw [combineFunc_true, combineFunc_true, evalE_sum, evalE_sum,
              hp1, key_sum env, evalSum_nil]
            ring
    | cons c1 ks1 =>
      have hc1cs : c1 ∈ cs := by
        have hmemf : c1 ∈ cs.filter (fun c => isConstant fv c) := by
          rw [← hks]
          simp
        exact List.mem_of_mem_filter hmemf
      cases ks1 with
      | nil =>
        by_cases hat : isAtomic c1 = true
        · have hagree_c1 : ∀ env env2 : String → ℚ,
              (∀ x ∈ exprVarsList cs, env2 x = env x) →
              evalE env2 c1 = evalE env c1 := fun env env2 hag =>
            evalE_atomic_agree c1 hat (exprVarsList cs)
              (exprVars_mem_of_mem cs c1 hc1cs) env env2 hag
          cases ns with
          | nil =>
            rw [mca_single_atomic_nil fv fresh isSum cs st st1 c1 hpart
              hat] at h
            cases h
            refine Sp.mono_env ?_
            intro env env2 hagree hp
            obtain ⟨hp1, hp2⟩ := hp
            have hc1 := hagree_c1 env env2 hagree
            cases isSum
            · have hFp : evalProd env
                  (cs.filter (fun c => !(isConstant fv c))) = 1 := by
                rw [← hp2]
                exact evalProd_nil env2
              rw [combineFunc_false, evalE_prod, key_prod env, hFp, hc1,
                evalProd_cons, evalProd_nil]
              ring
            · have hFs : evalSum env
                  (cs.filter (fun c => !(isConstant fv c))) = 0 := by
                rw [← hp1]
                exact evalSum_nil env2
              rw [combineFunc_true, evalE_sum, key_sum env, hFs, hc1,
                evalSum_cons, evalSum_nil]
              ring
          | cons m1 ms1 =>
            rw [mca_single_atomic_cons fv fresh isSum cs st st1 c1 m1 ms1
              hpart hat] at h
            cases h
            refine Sp.mono_env ?_
            intro env env2 hagree hp
            obtain ⟨hp1, hp2⟩ := hp
            have hc1 := hagree_c1 env env2 hagree
            cases isSum
            · rw [combineFunc_false, combineFunc_false, evalE_prod,
                evalE_prod, evalProd_cons, hc1, hp2, key_prod env,
                evalProd_cons, evalProd_nil]
              ring
            · rw [combineFunc_true, combineFunc_true, evalE_sum, evalE_sum,
                evalSum_cons, hc1, hp1, key_sum env, evalSum_cons,
                evalSum_nil]
              ring
        · simp only [Bool.not_eq_true] at hat
          have hemit := CollapseOut.emitTo hinj st1 c1 (exprVarsList cs)
            (exprVars_mem_of_mem cs c1 hc1cs)
          cases ns with
          | nil =>
            rw [mca_single_nonatomic_nil fv fresh isSum cs st st1 c1 hpart
              hat] at h
            cases h
            refine (Sp.seq hemit).mono_env ?_
            intro env env2 _ hp
            obtain ⟨⟨hp1, hp2⟩, hw⟩ := hp
            cases isSum
            · have hFp : evalProd env
                  (cs.filter (fun c => !(isConstant fv c))) = 1 := by
                rw [← hp2]
                exact evalProd_nil env2
              rw [combineFunc_false, evalE_var, hw, evalE_prod, key_prod env,
                hFp, evalProd_cons, evalProd_nil]
              ring
            · have hFs : evalSum env
                  (cs.filter (fun c => !(isConstant fv c))) = 0 := by
                rw [← hp1]
                exact evalSum_nil env2
              rw [combineFunc_true, evalE_var, hw, evalE_sum, key_sum env,
                hFs, evalSum_cons, evalSum_nil]
              ring
          | cons m1 ms1 =>
            rw [mca_single_nonatomic_cons fv fresh isSum cs st st1 c1 m1 ms1
              hpart hat] at h
            cases h
            refine (Sp.seq hemit).mono_env ?_
            intro env env2 _ hp
            obtain ⟨⟨hp1, hp2⟩, hw⟩ := hp
            cases isSum
            · rw [combineFunc_false, combineFunc_false, evalE_prod,
                evalE_prod, evalProd_cons, evalE_var, hw, hp2, key_prod env,
                evalProd_cons, evalProd_nil]
              ring
            · rw [combineFunc_true, combineFunc_true, evalE_sum, evalE_sum,
                evalSum_cons, evalE_var, hw, hp1, key_sum env, evalSum_cons,
                evalSum_nil]
              ring
      | cons c2 ks2 =>
        have hsubks : ∀ x ∈ exprVarsList (c1 :: c2 :: ks2),
            x ∈ exprVarsList cs := by
          rw [hks]
          exact exprVarsList_filter _ cs
        have hemit := CollapseOut.emitTo hinj st1
          (combineFunc isSum (c1 :: c2 :: ks2)) (exprVarsList cs)
          (fun x hx => hsubks x (by rwa [exprVars_combineFunc] at hx))
        cases ns with
        | nil =>
          rw [mca_multi_const_nil fv fresh isSum cs st st1 c1 c2 ks2
            hpart] at h
          cases h
          refine (Sp.seq hemit).mono_env ?_
          intro env env2 _ hp
          obtain ⟨⟨hp1, hp2⟩, hw⟩ := hp
          cases isSum
          · have hFp : evalProd env
                (cs.filter (fun c => !(isConstant fv c))) = 1 := by
              rw [← hp2]
              exact evalProd_nil env2
            rw [combineFunc_false] at hw
            rw [evalE_prod] at hw
            rw [combineFunc_false, evalE_var, hw, evalE_prod, key_prod env,
              hFp]
            ring
          · have hFs : evalSum env
                (cs.filter (fun c => !(isConstant fv c))) = 0 := by
              rw [← hp1]
              exact evalSum_nil env2
            rw [combineFunc_true] at hw
            rw [evalE_sum] at hw
            rw [combineFunc_true, evalE_var, hw, evalE_sum, key_sum env, hFs]
            ring
        | cons m1 ms1 =>
          rw [mca_multi_const_cons fv fresh isSum cs st st1 c1 c2 m1 ks2 ms1
            hpart] at h
          cases h
          refine (Sp.seq hemit).mono_env ?_
          intro env env2 _ hp
          obtain ⟨⟨hp1, hp2⟩, hw⟩ := hp
          cases isSum
          · rw [combineFunc_false] at hw
            rw [evalE_prod] at hw
            rw [combineFunc_false, combineFunc_false, evalE_prod, evalE_prod,
              evalProd_cons, evalE_var, hw, hp2, key_prod env]
          · rw [combineFunc_true] at hw
            rw [evalE_sum] at hw
            rw [combineFunc_true, combineFunc_true, evalE_sum, evalE_sum,
              evalSum_cons, evalE_var, hw, hp1, key_sum env]
termination_by (sizeOf cs, 1)

end

/-- Executing the emitted assignments on top of an environment: a name
bound by an assignment evaluates its right-hand side in the base
environment (right-hand sides only mention original variables), any
other name keeps its base value. -/
def extendEnv (env : String → ℚ) (asgns : List (String × Expr)) :
    String → ℚ :=
  fun x =>
    match slookup asgns x with
    | some a => evalE env a
    | none => env x

/-- Whenever `collapse_constants` does return (the C1 crash aside),
evaluating the rewritten expression under the emitted assignments gives
the value of the original expression — the equivalence C1 asserts, for
any injective fresh-name supply whose names do not occur in the input. -/
theorem collapse_constants_equiv (e e2 : Expr) (fv : List String)
    (fresh : Nat → String) (asgns : List (String × Expr))
    (env : String → ℚ)
    (hinj : Function.Injective fresh)
    (hnocc : ∀ n : Nat, fresh n ∉ exprVars e)
    (hok : collapse_constants e fv fresh = .ok (e2, asgns)) :
    evalE (extendEnv env asgns) e2 = evalE env e := by
  cases hd : cdispatch fv fresh e ⟨0, []⟩ with
  | error er => simp [collapse_constants, hd] at hok
  | ok pair =>
    obtain ⟨e2x, st2⟩ := pair
    simp only [collapse_constants, hd, Except.ok.injEq, Prod.mk.injEq] at hok
    obtain ⟨he2, hasgn⟩ := hok
    subst he2
    subst hasgn
    obtain ⟨hmono, Δ, hasg, hnew, hstok, heval⟩ :=
      cdispatch_spec fv fresh hinj e ⟨0, []⟩ e2x st2 hd
    have hΔ : Δ = st2.assignments := by simpa using hasg.symm
    subst hΔ
    have hstok2 : StOK fresh st2 :=
      hstok ⟨fun p hp => absurd hp (List.not_mem_nil p), List.nodup_nil⟩
    apply heval env (extendEnv env st2.assignments)
    refine ⟨?_, ?_⟩
    · intro x hx
      have hnone : slookup st2.assignments x = none := by
        apply slookup_eq_none_of_no_key
        intro p hp heq
        obtain ⟨j, _, _, hj3, _⟩ := hnew p hp
        exact hnocc j (by rw [← hj3, heq]; exact hx)
      simp [extendEnv, hnone]
    · intro p hp
      have hsome : slookup st2.assignments p.1 = some p.2 :=
        slookup_of_mem_nodup st2.assignments p hp hstok2.2
      simp [extendEnv, hsome]
